import Mathlib

/-!
# Verification of the wireless-network hypergraph generator

Shallow embedding of `src/hypergraph_wireless.py`.

Modelling conventions:
* Python tuples/lists of vertex ids become `List ℕ`; the edge dictionary
  `E` (keys `0..N`) becomes a total function `ℕ → List (List ℕ)`, and the
  operations that can hit a missing key in Python are additionally modelled
  by explicit fallible variants (`addEdgeRun`, `isIndependentSetChecked`)
  that produce a `PyFault` exactly where CPython would raise.
* Station locations are an abstract type `P` (2-D points in the source).
  The floating-point kernel of the feasibility predicate is kept as two
  parameters: `intf w s` models `EuclidDist(w,s) ** (-alpha)` (so the
  path-loss exponent `alpha` is absorbed into `intf`), and `rnd` models
  `round(·, 3)`.  All structural behaviour is proved for every
  instantiation of these parameters, hence for the concrete IEEE-double
  instantiation of the source.
* Rational numbers `ℚ` stand in for Python floats.
-/

set_option maxHeartbeats 1000000

/-- Fault kinds raised by the Python runtime that the embedded operations
can encounter: `ValueError` (from `max(e)` on an empty `e`) and `KeyError`
(from a lookup `E[k]` with `k` outside `0..N`). -/
inductive PyFault where
  | valueError : PyFault
  | keyError : PyFault
deriving DecidableEq, Repr

/-- `tuple(sorted(list(e)))` from `addEdge` / `removeEdge`: the entries are
sorted and duplicates are kept. -/
def sortEdge (e : List ℕ) : List ℕ :=
  e.insertionSort (· ≤ ·)

/-- The `Hypergraph` class: vertex count `N`, the level-set dictionary `E`
(`E k` is the list of edges of size `k`), and the location dictionary. -/
@[ext]
structure Hypergraph (P : Type) where
  numVertices : ℕ
  E : ℕ → List (List ℕ)
  location : ℕ → P

namespace Hypergraph

variable {P : Type}

/-- `Hypergraph(N)`: empty level sets, locations not yet assigned
(modelled by the default inhabitant). -/
def init [Inhabited P] (N : ℕ) : Hypergraph P :=
  ⟨N, fun _ => [], fun _ => default⟩

/-- `setLocation(i, s)`. -/
def setLocation (H : Hypergraph P) (i : ℕ) (s : P) : Hypergraph P :=
  { H with location := Function.update H.location i s }

/-- `getLocation(i)`. -/
def getLocation (H : Hypergraph P) (i : ℕ) : P :=
  H.location i

/-- `addEdge(e)`, happy path: with `edge_tuple = sortEdge e` and
`k = len(edge_tuple)`, append the tuple to level set `E[k]` when it is
not already present. -/
def addEdge (H : Hypergraph P) (e : List ℕ) : Hypergraph P :=
  if sortEdge e ∈ H.E (sortEdge e).length then H
  else { H with
    E := Function.update H.E (sortEdge e).length
      (H.E (sortEdge e).length ++ [sortEdge e]) }

/-- Result of running `addEdge` under Python semantics: whether the
`"Error! ..."` message was printed, whether an exception was raised
(`fault`), and the state of the hypergraph afterwards. -/
structure AddEdgeResult (P : Type) where
  errorReported : Bool
  fault : Option PyFault
  state : Hypergraph P

/-- `addEdge(e)` with the Python runtime behaviour made explicit:
`max(e)` raises `ValueError` on an empty `e` (before anything is printed
or mutated); on `a :: l` it evaluates to `l.foldl max a`; then the
out-of-range check prints its message without stopping; then the lookup
`self.E[k]` raises `KeyError` when `k = len(e) > N`; otherwise the
insertion of `addEdge` happens. -/
def addEdgeRun (H : Hypergraph P) (e : List ℕ) : AddEdgeResult P :=
  match e with
  | [] => ⟨false, some PyFault.valueError, H⟩
  | a :: l =>
    if (a :: l).length ≤ H.numVertices then
      ⟨decide (H.numVertices < l.foldl max a), none, H.addEdge (a :: l)⟩
    else
      ⟨decide (H.numVertices < l.foldl max a), some PyFault.keyError, H⟩

/-- `removeEdge(e)`: remove the sorted tuple `sortEdge e` from level set
`E[len(sortEdge e)]` if present. -/
def removeEdge (H : Hypergraph P) (e : List ℕ) : Hypergraph P :=
  if sortEdge e ∈ H.E (sortEdge e).length then
    { H with
      E := Function.update H.E (sortEdge e).length
        ((H.E (sortEdge e).length).erase (sortEdge e)) }
  else H

/-- `addEdges(F)`. -/
def addEdges (H : Hypergraph P) (F : List (List ℕ)) : Hypergraph P :=
  F.foldl addEdge H

/-- One iteration of the loop of `removeSupersetsOf`: filter level set `i`,
keeping the edges `f` with `set(e).issubset(set(f)) == False`.  The
`len(self.E[i]) >= 1` guard of the source is kept. -/
def pruneAt (e : List ℕ) (H : Hypergraph P) (i : ℕ) : Hypergraph P :=
  if 1 ≤ (H.E i).length then
    { H with
      E := Function.update H.E i
        ((H.E i).filter (fun f => ! e.all (fun x => decide (x ∈ f)))) }
  else H

/-- `removeSupersetsOf(e)`: for `i in range(len(e)+1, N+1)` drop from
`E[i]` every superset of `e`. -/
def removeSupersetsOf (H : Hypergraph P) (e : List ℕ) : Hypergraph P :=
  (List.Ico (e.length + 1) (H.numVertices + 1)).foldl (pruneAt e) H

/-- `setLevelSet(k, F)`. -/
def setLevelSet (H : Hypergraph P) (k : ℕ) (F : List (List ℕ)) : Hypergraph P :=
  { H with E := Function.update H.E k F }

/-- `getEdgesLevelSet(k)`. -/
def getEdgesLevelSet (H : Hypergraph P) (k : ℕ) : List (List ℕ) :=
  H.E k

/-- `getNumEdges()`. -/
def getNumEdges (H : Hypergraph P) : ℕ :=
  (List.Ico 0 (H.numVertices + 1)).foldl (fun res i => res + (H.E i).length) 0

/-- The body shared by the two ways `isIndependentSet` is called in the
source (on a list and on a Python set): scan the level sets `1..k` and
fail as soon as an edge is contained in the queried collection, whose
membership predicate is `mem`. -/
def isIndepMem (H : Hypergraph P) (k : ℕ) (mem : ℕ → Bool) : Bool :=
  (List.Ico 1 (k + 1)).all fun i => (H.E i).all fun edge => ! edge.all mem

/-- `isIndependentSet(J)` for a list argument `J`. -/
def isIndependentSet (H : Hypergraph P) (J : List ℕ) : Bool :=
  H.isIndepMem J.length (fun x => decide (x ∈ J))

/-- The loop of `isIndependentSet` with the missing-key fault made
explicit: the lookup `self.E[i]` raises `KeyError` as soon as `i`
exceeds `numVertices`. -/
def indepLoop (H : Hypergraph P) (mem : ℕ → Bool) : List ℕ → Except PyFault Bool
  | [] => Except.ok true
  | i :: rest =>
    if H.numVertices < i then Except.error PyFault.keyError
    else if (H.E i).any (fun edge => edge.all mem) then Except.ok false
    else indepLoop H mem rest

/-- `isIndependentSet(J)` under Python semantics. -/
def isIndependentSetChecked (H : Hypergraph P) (J : List ℕ) : Except PyFault Bool :=
  H.indepLoop (fun x => decide (x ∈ J)) (List.Ico 1 (J.length + 1))

end Hypergraph

/-- `itertools.combinations(e, 2)`: the ordered pairs of entries of `e`
taken at distinct positions, in enumeration order. -/
def pairsOf : List ℕ → List (ℕ × ℕ)
  | [] => []
  | x :: l => (l.map (fun y => (x, y))) ++ pairsOf l

namespace Hypergraph

variable {P : Type}

/-- One update `Delta[i-1][j-1] = max(Delta[i-1][j-1], w)` followed by the
symmetric copy `Delta[j-1][i-1] = Delta[i-1][j-1]`.  The matrix is kept
1-indexed (entry `(i, j)` of the model is entry `[i-1][j-1]` of the
Python array). -/
def updDelta (w : ℚ) (D : ℕ → ℕ → ℚ) (p : ℕ × ℕ) : ℕ → ℕ → ℚ :=
  let v := max (D p.1 p.2) w
  fun a b => if a = p.1 ∧ b = p.2 ∨ a = p.2 ∧ b = p.1 then v else D a b

/-- `Delta()`: starting from the all-zeros matrix, for every level `k`,
edge `e` and pair `(i,j)` of `e`, raise the symmetric entry `(i,j)` to
`1/(len(e)-1)`. -/
def Delta (H : Hypergraph P) : ℕ → ℕ → ℚ :=
  (List.Ico 0 (H.numVertices + 1)).foldl
    (fun D k => (H.E k).foldl
      (fun D e => (pairsOf e).foldl (updDelta (1 / ((e.length : ℚ) - 1))) D) D)
    (fun _ _ => 0)

/-- Second half of a pair step of `AdjacencyList()`: append `j` to
`Adj[i]` when missing. -/
def adjInsertSnd (A1 : ℕ → List ℕ) (p : ℕ × ℕ) : ℕ → List ℕ :=
  if p.2 ∈ A1 p.1 then A1
  else Function.update A1 p.1 (A1 p.1 ++ [p.2])

/-- One pair step of `AdjacencyList()`: append `i` to `Adj[j]` when
missing, then `j` to `Adj[i]` when missing (in this order, as in the
source). -/
def adjInsert (A : ℕ → List ℕ) (p : ℕ × ℕ) : ℕ → List ℕ :=
  adjInsertSnd
    (if p.1 ∈ A p.2 then A else Function.update A p.2 (A p.2 ++ [p.1])) p

/-- `AdjacencyList()`: neighbours collected from the pairs of every edge. -/
def AdjacencyList (H : Hypergraph P) : ℕ → List ℕ :=
  (List.Ico 0 (H.numVertices + 1)).foldl
    (fun A k => (H.E k).foldl (fun A e => (pairsOf e).foldl adjInsert A) A)
    (fun _ => [])

/-- The inner accumulation `s = 0; for j in J: s += Delta[i-1][j-1]`. -/
def sumDeltaRow (D : ℕ → ℕ → ℚ) (i : ℕ) (J : List ℕ) : ℚ :=
  J.foldl (fun s j => s + D i j) 0

/-- `interferenceDegree()`: for every vertex `i`, scan the power set of
`Adj[i]` (the source enumerates it by increasing size via `powerset`;
`sublists'` enumerates the same subsets in another order, which is
immaterial because the loop body only accumulates maxima), updating the
running maxima `Delta_i_p` and `Delta_i_pp`, and fold the per-vertex
maxima into the result.  The second independence test is applied to the
Python set `set(J).union({i})`, modelled by the `Finset` union. -/
def interferenceDegree (H : Hypergraph P) : ℚ :=
  let D := H.Delta
  let Adj := H.AdjacencyList
  (List.Ico 1 (H.numVertices + 1)).foldl
    (fun res i =>
      let pq := (Adj i).sublists'.foldl
        (fun (pq : ℚ × ℚ) J =>
          let p :=
            if 1 ≤ J.length ∧ H.isIndependentSet J = true then
              max pq.1 (sumDeltaRow D i J)
            else pq.1
          let U := J.toFinset ∪ {i}
          let q :=
            if 1 ≤ J.length ∧ H.isIndepMem U.card (fun x => decide (x ∈ U)) = true then
              max pq.2 (1 + sumDeltaRow D i J)
            else pq.2
          (p, q))
        (0, 0)
      max (max res pq.1) pq.2)
    0

end Hypergraph

section Feasibility

variable {P : Type}

/-- `Energy(W2, s)` from `isForbidden`: total interference at `s` due to
the stations of `W2`, where `intf w s` models `EuclidDist(w, s) ** (-alpha)`. -/
def Energy {A : Type} [Zero A] [Add A] (intf : P → P → A) (W2 : List P)
    (s : P) : A :=
  W2.foldl (fun res w => res + intf w s) 0

/-- The loop of `isForbidden`: scan the candidate receivers of `W` in
order; `W_minus_w = W[:]; W_minus_w.remove(w)` removes the first
occurrence of `w`, i.e. `W.erase w`; return `True` at the first receiver
whose rounded energy reaches the threshold. -/
def forbLoop {A : Type} [Zero A] [Add A] [LinearOrder A] [DecidableEq P]
    (intf : P → P → A) (rnd : A → A) (beta : A)
    (W : List P) : List P → Bool
  | [] => false
  | w :: rest =>
    if beta ≤ rnd (Energy intf (W.erase w) w) then true
    else forbLoop intf rnd beta W rest

/-- `isForbidden(W, alpha, beta)` with `alpha` absorbed into `intf` and
`round(·, 3)` modelled by `rnd`. -/
def isForbidden {A : Type} [Zero A] [Add A] [LinearOrder A] [DecidableEq P]
    (intf : P → P → A) (rnd : A → A) (beta : A)
    (W : List P) : Bool :=
  forbLoop intf rnd beta W W

end Feasibility

section Generation

variable {P : Type}

/-- One iteration `k` of the main loop of `GenerateHypergraph`: iterate
over the level-`k` candidates, keep the forbidden ones in `temp`,
pruning their supersets as soon as they are confirmed, and finally
`setLevelSet(k, temp)`.  The source iterates over the live list
`self.E[k]`, which is never mutated during the iteration because
`removeSupersetsOf` with a length-`k` argument only touches the levels
above `k`; the fold below iterates over that same list. -/
def genStep {A : Type} [Zero A] [Add A] [LinearOrder A] [DecidableEq P]
    (intf : P → P → A) (rnd : A → A) (beta : A)
    (H : Hypergraph P) (k : ℕ) : Hypergraph P :=
  let step := (H.getEdgesLevelSet k).foldl
    (fun (acc : List (List ℕ) × Hypergraph P) W =>
      if isForbidden intf rnd beta (W.map acc.2.getLocation) = true then
        (acc.1 ++ [W], acc.2.removeSupersetsOf W)
      else acc)
    ([], H)
  step.2.setLevelSet k step.1

/-- `GenerateHypergraph(S, alpha, beta)`: store the locations, seed the
level sets `2..N` with all `k`-subsets of `[1..N]` (the source uses
`itertools.combinations`, whose output `sublistsLen` reproduces up to
enumeration order, every sorted `k`-subset appearing exactly once), then
process the levels in increasing order. -/
def GenerateHypergraph {A : Type} [Zero A] [Add A] [LinearOrder A]
    [DecidableEq P] [Inhabited P] (intf : P → P → A)
    (rnd : A → A) (beta : A) (S : List P) : Hypergraph P :=
  let N := S.length
  let H0 := (List.Ico 0 N).foldl
    (fun H i => H.setLocation (i + 1) (S.getD i default)) (Hypergraph.init N)
  let H1 := (List.Ico 2 (N + 1)).foldl
    (fun H k => H.addEdges (List.sublistsLen k (List.Ico 1 (N + 1)))) H0
  (List.Ico 2 (N + 1)).foldl (genStep intf rnd beta) H1

end Generation

section Sequences

variable {P : Type}

/-- The mutating interface of `Hypergraph` exercised during generation. -/
inductive HOp where
  | add : List ℕ → HOp
  | rem : List ℕ → HOp
  | rsup : List ℕ → HOp

/-- Apply one operation.  A call that raises in Python (`addEdge` on an
empty list or with `len(e) > N`, `removeEdge` with `len(e) > N`) leaves
the state unmodified at the point of the exception, so it is modelled by
the identity. -/
def applyOp (H : Hypergraph P) : HOp → Hypergraph P
  | HOp.add e => if e ≠ [] ∧ e.length ≤ H.numVertices then H.addEdge e else H
  | HOp.rem e => if e.length ≤ H.numVertices then H.removeEdge e else H
  | HOp.rsup e => H.removeSupersetsOf e

/-- Apply a sequence of operations. -/
def applyOps (H : Hypergraph P) (ops : List HOp) : Hypergraph P :=
  ops.foldl applyOp H

/-- Level-set well-formedness: every element of `E k` is a strictly
increasing tuple of exactly `k` vertices, and no level set contains
duplicate tuples. -/
def WF (H : Hypergraph P) : Prop :=
  (∀ k, ∀ t ∈ H.E k, t.length = k ∧ t.Pairwise (· < ·)) ∧ ∀ k, (H.E k).Nodup

end Sequences

/-! ## Pointwise characterization of `removeSupersetsOf` -/

namespace Hypergraph

variable {P : Type}

theorem pruneAt_numVertices (e : List ℕ) (H : Hypergraph P) (i : ℕ) :
    (pruneAt e H i).numVertices = H.numVertices := by
  unfold pruneAt; split <;> rfl

theorem pruneAt_location (e : List ℕ) (H : Hypergraph P) (i : ℕ) :
    (pruneAt e H i).location = H.location := by
  unfold pruneAt; split <;> rfl

theorem pruneAt_E (e : List ℕ) (H : Hypergraph P) (i j : ℕ) :
    (pruneAt e H i).E j =
      if j = i then (H.E i).filter (fun f => ! e.all (fun x => decide (x ∈ f)))
      else H.E j := by
  unfold pruneAt
  split
  · simp only [Function.update_apply]
  · rename_i hlen
    have h0 : H.E i = [] := by
      cases h : H.E i with
      | nil => rfl
      | cons a l => rw [h] at hlen; simp at hlen
    by_cases hji : j = i
    · subst hji; rw [h0]; simp
    · simp [hji]

theorem foldl_pruneAt_numVertices (e : List ℕ) :
    ∀ (l : List ℕ) (H : Hypergraph P),
      (l.foldl (pruneAt e) H).numVertices = H.numVertices := by
  intro l
  induction l with
  | nil => intro H; rfl
  | cons i l ih =>
    intro H
    simp only [List.foldl_cons]
    rw [ih, pruneAt_numVertices]

theorem foldl_pruneAt_location (e : List ℕ) :
    ∀ (l : List ℕ) (H : Hypergraph P),
      (l.foldl (pruneAt e) H).location = H.location := by
  intro l
  induction l with
  | nil => intro H; rfl
  | cons i l ih =>
    intro H
    simp only [List.foldl_cons]
    rw [ih, pruneAt_location]

theorem foldl_pruneAt_E (e : List ℕ) :
    ∀ (l : List ℕ), l.Nodup → ∀ (H : Hypergraph P) (j : ℕ),
      (l.foldl (pruneAt e) H).E j =
        if j ∈ l then (H.E j).filter (fun f => ! e.all (fun x => decide (x ∈ f)))
        else H.E j := by
  intro l
  induction l with
  | nil => intro _ H j; simp
  | cons i l ih =>
    intro hnd H j
    have hnd' := hnd
    rw [List.nodup_cons] at hnd'
    simp only [List.foldl_cons]
    rw [ih hnd'.2]
    by_cases hjl : j ∈ l
    · have hji : j ≠ i := fun h => hnd'.1 (h ▸ hjl)
      rw [pruneAt_E, if_neg hji]
      simp [hjl, List.mem_cons]
    · rw [pruneAt_E]
      by_cases hji : j = i
      · subst hji; simp [hjl]
      · simp [hjl, hji]

theorem removeSupersetsOf_numVertices (H : Hypergraph P) (e : List ℕ) :
    (H.removeSupersetsOf e).numVertices = H.numVertices :=
  foldl_pruneAt_numVertices e _ H

theorem removeSupersetsOf_location (H : Hypergraph P) (e : List ℕ) :
    (H.removeSupersetsOf e).location = H.location :=
  foldl_pruneAt_location e _ H

theorem removeSupersetsOf_E (H : Hypergraph P) (e : List ℕ) (j : ℕ) :
    (H.removeSupersetsOf e).E j =
      if e.length < j ∧ j ≤ H.numVertices then
        (H.E j).filter (fun f => ! e.all (fun x => decide (x ∈ f)))
      else H.E j := by
  unfold removeSupersetsOf
  rw [foldl_pruneAt_E e _ (List.Ico.nodup _ _)]
  have hmem : j ∈ List.Ico (e.length + 1) (H.numVertices + 1) ↔
      e.length < j ∧ j ≤ H.numVertices := by
    rw [List.Ico.mem]
    constructor
    · rintro ⟨h1, h2⟩; exact ⟨h1, Nat.lt_succ_iff.mp h2⟩
    · rintro ⟨h1, h2⟩; exact ⟨h1, Nat.lt_succ_iff.mpr h2⟩
  by_cases hj : e.length < j ∧ j ≤ H.numVertices
  · rw [if_pos (hmem.mpr hj), if_pos hj]
  · rw [if_neg (fun h => hj (hmem.mp h)), if_neg hj]

end Hypergraph

/-! ## Small facts about `sortEdge` and `listMax` -/

theorem sortEdge_length (e : List ℕ) : (sortEdge e).length = e.length :=
  (List.perm_insertionSort (· ≤ ·) e).length_eq

theorem lt_foldl_max_iff (n : ℕ) :
    ∀ (l : List ℕ) (a : ℕ), n < l.foldl max a ↔ n < a ∨ ∃ x ∈ l, n < x := by
  intro l
  induction l with
  | nil => intro a; simp
  | cons b l ih =>
    intro a
    simp only [List.foldl_cons, ih, lt_max_iff, List.mem_cons]
    constructor
    · rintro (⟨h | h⟩ | ⟨x, hx, h⟩)
      · exact Or.inl h
      · exact Or.inr ⟨b, Or.inl rfl, h⟩
      · exact Or.inr ⟨x, Or.inr hx, h⟩
    · rintro (h | ⟨x, hx | hx, h⟩)
      · exact Or.inl (Or.inl h)
      · exact Or.inl (Or.inr (hx ▸ h))
      · exact Or.inr ⟨x, hx, h⟩

namespace Hypergraph

variable {P : Type}

theorem addEdge_E_self (H : Hypergraph P) (e : List ℕ) :
    sortEdge e ∈ (H.addEdge e).E e.length := by
  unfold addEdge
  simp only [sortEdge_length]
  split
  · assumption
  · show sortEdge e ∈ Function.update H.E e.length (H.E e.length ++ [sortEdge e]) e.length
    rw [Function.update_same]
    exact List.mem_append_right _ (List.mem_singleton.mpr rfl)

end Hypergraph

/-! ## Claim C4 : postcondition and frame of `removeSupersetsOf` -/

/-- C4.  For every hypergraph `H` and every tuple `e` (in particular any
tuple of distinct vertex ids, not necessarily a current edge), after
`H.removeSupersetsOf e` every level set `E i` with
`|e| < i ≤ numVertices` holds exactly its previous edges that are not
supersets of `e`, in their previous relative order (a `filter`), while
every other level set — in particular every `E i` with `i ≤ |e|` — and
the vertex count and all location data are unchanged. -/
theorem removeSupersetsOf_spec {P : Type} (H : Hypergraph P) (e : List ℕ) :
    (H.removeSupersetsOf e).numVertices = H.numVertices ∧
    (H.removeSupersetsOf e).location = H.location ∧
    ∀ i, (H.removeSupersetsOf e).E i =
      if e.length < i ∧ i ≤ H.numVertices then
        (H.E i).filter (fun f => ! e.all (fun x => decide (x ∈ f)))
      else H.E i := by
  refine ⟨H.removeSupersetsOf_numVertices e, H.removeSupersetsOf_location e, ?_⟩
  intro i
  exact H.removeSupersetsOf_E e i

/-! ## Claim C8 : idempotence of `removeSupersetsOf` -/

/-- C8.  Pruning supersets of the same tuple twice equals pruning once. -/
theorem removeSupersetsOf_idem {P : Type} (H : Hypergraph P) (e : List ℕ) :
    (H.removeSupersetsOf e).removeSupersetsOf e = H.removeSupersetsOf e := by
  have hnv := H.removeSupersetsOf_numVertices e
  ext1
  · rw [(H.removeSupersetsOf e).removeSupersetsOf_numVertices e, hnv]
  · funext j
    rw [(H.removeSupersetsOf e).removeSupersetsOf_E e j, hnv,
      H.removeSupersetsOf_E e j]
    by_cases hc : e.length < j ∧ j ≤ H.numVertices
    · simp only [if_pos hc, List.filter_filter]
      exact List.filter_congr (fun f _ => Bool.and_self _)
    · simp only [if_neg hc]
  · rw [(H.removeSupersetsOf e).removeSupersetsOf_location e]


/-! ## Claim C10 : fault behaviour of `addEdge` at the public interface -/

/-- C10.  `addEdge` raises `ValueError` (from `max` of an empty sequence)
on the empty list, raises `KeyError` (missing level-set key) when the
argument has more than `numVertices` entries, and returns without fault
on every other list, in which case the state is the one produced by the
insertion logic. -/
theorem addEdgeRun_fault_spec {P : Type} (H : Hypergraph P) (e : List ℕ) :
    (H.addEdgeRun e).fault =
      (if e = [] then some PyFault.valueError
       else if H.numVertices < e.length then some PyFault.keyError
       else none) ∧
    ((H.addEdgeRun e).fault = none → (H.addEdgeRun e).state = H.addEdge e) := by
  cases e with
  | nil => exact ⟨rfl, fun h => Option.noConfusion h⟩
  | cons a l =>
    by_cases hlen : (a :: l).length ≤ H.numVertices
    · have hrun : H.addEdgeRun (a :: l) =
        ⟨decide (H.numVertices < l.foldl max a), none, H.addEdge (a :: l)⟩ := by
        simp only [Hypergraph.addEdgeRun]
        rw [if_pos hlen]
      rw [hrun]
      refine ⟨?_, fun _ => rfl⟩
      rw [if_neg (List.cons_ne_nil a l), if_neg (Nat.not_lt.mpr hlen)]
    · have hrun : H.addEdgeRun (a :: l) =
        ⟨decide (H.numVertices < l.foldl max a), some PyFault.keyError, H⟩ := by
        simp only [Hypergraph.addEdgeRun]
        rw [if_neg hlen]
      rw [hrun]
      refine ⟨?_, fun h => Option.noConfusion h⟩
      rw [if_neg (List.cons_ne_nil a l), if_pos (Nat.not_le.mp hlen)]

/-- Witness for C10 at the empty list (ValueError) and at `[1,1]` with a
single vertex (KeyError through repeated ids). -/
theorem addEdgeRun_fault_spec_witness :
    (((Hypergraph.init 1 : Hypergraph ℕ).addEdgeRun []).fault =
      (if ([] : List ℕ) = [] then some PyFault.valueError
       else if (Hypergraph.init 1 : Hypergraph ℕ).numVertices <
           ([] : List ℕ).length then some PyFault.keyError
       else none) ∧
    (((Hypergraph.init 1 : Hypergraph ℕ).addEdgeRun []).fault = none →
      ((Hypergraph.init 1 : Hypergraph ℕ).addEdgeRun []).state =
        (Hypergraph.init 1 : Hypergraph ℕ).addEdge [])) ∧
    (((Hypergraph.init 1 : Hypergraph ℕ).addEdgeRun [1, 1]).fault =
      (if ([1, 1] : List ℕ) = [] then some PyFault.valueError
       else if (Hypergraph.init 1 : Hypergraph ℕ).numVertices <
           ([1, 1] : List ℕ).length then some PyFault.keyError
       else none) ∧
    (((Hypergraph.init 1 : Hypergraph ℕ).addEdgeRun [1, 1]).fault = none →
      ((Hypergraph.init 1 : Hypergraph ℕ).addEdgeRun [1, 1]).state =
        (Hypergraph.init 1 : Hypergraph ℕ).addEdge [1, 1])) :=
  ⟨addEdgeRun_fault_spec (Hypergraph.init 1) [],
   addEdgeRun_fault_spec (Hypergraph.init 1) [1, 1]⟩

/-! ## Claim C7 : error reporting of `addEdge` -/

/-- C7 counterexample.  The claim states an error is reported whenever
`e` holds a vertex id outside `[1, N]`.  With `N = 2`, the list `[0]`
holds the id `0`, which is outside `[1, 2]`, yet no error is reported
and the tuple `(0,)` is silently inserted into level set 1: the check of
the source only tests `max(e) > N`. -/
theorem addEdge_error_cex :
    (0 : ℕ) ∈ ([0] : List ℕ) ∧ ¬ (1 ≤ (0 : ℕ) ∧ (0 : ℕ) ≤ 2) ∧
    ((Hypergraph.init 2 : Hypergraph ℕ).addEdgeRun [0]).errorReported = false ∧
    ((Hypergraph.init 2 : Hypergraph ℕ).addEdgeRun [0]).fault = none ∧
    ((Hypergraph.init 2 : Hypergraph ℕ).addEdgeRun [0]).state.E 1 = [[0]] := by
  decide

/-- C7 (amended).  The error message is printed exactly when some entry
of `e` exceeds `numVertices` (ids below 1 are not detected); the report
is non-fatal: whenever the call does not raise, the state is the one
produced by the insertion logic — the sorted tuple is appended to
`E[len(e)]` unless already present, and in particular is an element of
`E[len(e)]` afterwards — and a raising call leaves the state unchanged. -/
theorem addEdge_error_spec {P : Type} (H : Hypergraph P) (e : List ℕ) :
    ((H.addEdgeRun e).errorReported = true ↔ ∃ x ∈ e, H.numVertices < x) ∧
    ((H.addEdgeRun e).fault = none →
      (H.addEdgeRun e).state = H.addEdge e ∧
      sortEdge e ∈ (H.addEdgeRun e).state.E e.length) ∧
    ((H.addEdgeRun e).fault ≠ none → (H.addEdgeRun e).state = H) := by
  have hmax : ∀ (a : ℕ) (l : List ℕ),
      (decide (H.numVertices < l.foldl max a) = true ↔
        ∃ x ∈ a :: l, H.numVertices < x) := by
    intro a l
    rw [decide_eq_true_iff, lt_foldl_max_iff]
    simp only [List.mem_cons]
    constructor
    · rintro (h | ⟨x, hx, h⟩)
      · exact ⟨a, Or.inl rfl, h⟩
      · exact ⟨x, Or.inr hx, h⟩
    · rintro ⟨x, hx | hx, h⟩
      · exact Or.inl (hx ▸ h)
      · exact Or.inr ⟨x, hx, h⟩
  cases e with
  | nil =>
    refine ⟨⟨fun h => Bool.noConfusion h, fun h => ?_⟩,
      fun h => Option.noConfusion h, fun _ => rfl⟩
    obtain ⟨x, hx, _⟩ := h
    cases hx
  | cons a l =>
    by_cases hlen : (a :: l).length ≤ H.numVertices
    · have hrun : H.addEdgeRun (a :: l) =
        ⟨decide (H.numVertices < l.foldl max a), none, H.addEdge (a :: l)⟩ := by
        simp only [Hypergraph.addEdgeRun]
        rw [if_pos hlen]
      rw [hrun]
      exact ⟨hmax a l,
        fun _ => ⟨rfl, Hypergraph.addEdge_E_self H (a :: l)⟩,
        fun hne => absurd rfl hne⟩
    · have hrun : H.addEdgeRun (a :: l) =
        ⟨decide (H.numVertices < l.foldl max a), some PyFault.keyError, H⟩ := by
        simp only [Hypergraph.addEdgeRun]
        rw [if_neg hlen]
      rw [hrun]
      exact ⟨hmax a l, fun h => Option.noConfusion h, fun _ => rfl⟩

/-- Witness for C7: out-of-range id `3` with two vertices. -/
theorem addEdge_error_spec_witness :
    ((((Hypergraph.init 2 : Hypergraph ℕ).addEdgeRun [3]).errorReported = true ↔
      ∃ x ∈ ([3] : List ℕ),
        (Hypergraph.init 2 : Hypergraph ℕ).numVertices < x) ∧
    ((((Hypergraph.init 2 : Hypergraph ℕ).addEdgeRun [3]).fault = none →
      ((Hypergraph.init 2 : Hypergraph ℕ).addEdgeRun [3]).state =
        (Hypergraph.init 2 : Hypergraph ℕ).addEdge [3] ∧
      sortEdge [3] ∈
        ((Hypergraph.init 2 : Hypergraph ℕ).addEdgeRun [3]).state.E
          ([3] : List ℕ).length)) ∧
    ((((Hypergraph.init 2 : Hypergraph ℕ).addEdgeRun [3]).fault ≠ none →
      ((Hypergraph.init 2 : Hypergraph ℕ).addEdgeRun [3]).state =
        (Hypergraph.init 2 : Hypergraph ℕ)))) :=
  addEdge_error_spec (Hypergraph.init 2) [3]

/-! ## Claim C5 : `isIndependentSet` -/

namespace Hypergraph

variable {P : Type}

theorem indepLoop_ok (H : Hypergraph P) (mem : ℕ → Bool) :
    ∀ l : List ℕ, (∀ i ∈ l, i ≤ H.numVertices) →
      H.indepLoop mem l =
        Except.ok (l.all fun i => (H.E i).all fun edge => ! edge.all mem) := by
  intro l
  induction l with
  | nil => intro _; rfl
  | cons i rest ih =>
    intro hb
    have hi : ¬ H.numVertices < i := Nat.not_lt.mpr (hb i (List.mem_cons_self i rest))
    unfold indepLoop
    rw [if_neg hi]
    by_cases hany : (H.E i).any (fun edge => edge.all mem) = true
    · rw [if_pos hany]
      obtain ⟨edge, hedge, hall⟩ := List.any_eq_true.mp hany
      have : ((H.E i).all fun edge => ! edge.all mem) = false := by
        rcases Bool.eq_false_or_eq_true ((H.E i).all fun edge => ! edge.all mem) with h | h
        · exact absurd ((List.all_eq_true.mp h) edge hedge) (by simp [hall])
        · exact h
      simp [List.all_cons, this]
    · rw [if_neg hany]
      rw [ih (fun j hj => hb j (List.mem_cons_of_mem i hj))]
      have : ((H.E i).all fun edge => ! edge.all mem) = true := by
        rw [List.all_eq_true]
        intro edge hedge
        rcases Bool.eq_false_or_eq_true (edge.all mem) with h | h
        · exact absurd (List.any_eq_true.mpr ⟨edge, hedge, h⟩) hany
        · simp [h]
      simp [List.all_cons, this]

theorem isIndepMem_iff (H : Hypergraph P) (k : ℕ) (mem : ℕ → Bool) :
    H.isIndepMem k mem = true ↔
      ∀ i, 1 ≤ i → i ≤ k → ∀ edge ∈ H.E i, ¬ edge.all mem = true := by
  unfold isIndepMem
  rw [List.all_eq_true]
  constructor
  · intro h i h1 h2 edge hedge
    have hi : i ∈ List.Ico 1 (k + 1) := List.Ico.mem.mpr ⟨h1, Nat.lt_succ_of_le h2⟩
    have := (List.all_eq_true.mp (h i hi)) edge hedge
    simp only [Bool.not_eq_true'] at this
    simp [this]
  · intro h i hi
    rw [List.all_eq_true]
    intro edge hedge
    obtain ⟨h1, h2⟩ := List.Ico.mem.mp hi
    simp only [Bool.not_eq_true']
    rcases Bool.eq_false_or_eq_true (edge.all mem) with hb | hb
    · exact absurd hb (h i h1 (Nat.lt_succ_iff.mp h2) edge hedge)
    · exact hb

end Hypergraph

/-- C5 counterexample.  The claim quantifies over every vertex list `J`,
but for `|J| > N` the Python loop looks up the missing level set
`E[N+1]` and raises `KeyError` instead of returning a Boolean: with one
vertex and `J = [1, 2]` no edge at all is contained in `J` (there are no
edges), yet the call does not return `True`. -/
theorem isIndependentSet_cex :
    (Hypergraph.init 1 : Hypergraph ℕ).isIndependentSetChecked [1, 2] =
      Except.error PyFault.keyError ∧
    ∀ i, ∀ edge ∈ (Hypergraph.init 1 : Hypergraph ℕ).E i, ¬ edge ⊆ [1, 2] := by
  constructor
  · rfl
  · intro i edge hedge
    simp only [Hypergraph.init] at hedge
    cases hedge

/-- C5 (amended).  For every vertex list `J` with `|J| ≤ numVertices`
(beyond which the source raises `KeyError`), the call returns normally
and yields `true` iff no edge found in the level sets of cardinality 1
up to `|J|` — exactly the ones the loop visits — is a subset of `J`. -/
theorem isIndependentSet_spec {P : Type} (H : Hypergraph P) (J : List ℕ)
    (hJ : J.length ≤ H.numVertices) :
    H.isIndependentSetChecked J = Except.ok (H.isIndependentSet J) ∧
    (H.isIndependentSet J = true ↔
      ∀ i, 1 ≤ i → i ≤ J.length → ∀ edge ∈ H.E i, ¬ edge ⊆ J) := by
  constructor
  · unfold Hypergraph.isIndependentSetChecked Hypergraph.isIndependentSet
      Hypergraph.isIndepMem
    exact H.indepLoop_ok _ _ (fun i hi =>
      le_trans (Nat.lt_succ_iff.mp (List.Ico.mem.mp hi).2) hJ)
  · rw [Hypergraph.isIndependentSet, Hypergraph.isIndepMem_iff]
    have hsub : ∀ edge : List ℕ,
        (edge.all fun x => decide (x ∈ J)) = true ↔ edge ⊆ J := by
      intro edge
      rw [List.all_eq_true]
      constructor
      · intro h x hx
        exact decide_eq_true_iff.mp (h x hx)
      · intro h x hx
        exact decide_eq_true_iff.mpr (h hx)
    constructor
    · intro h i h1 h2 edge hedge hs
      exact h i h1 h2 edge hedge ((hsub edge).mpr hs)
    · intro h i h1 h2 edge hedge hall
      exact h i h1 h2 edge hedge ((hsub edge).mp hall)

/-- Witness for C5: two vertices, single edge `(1,)`, query `J = [2, 1]`. -/
theorem isIndependentSet_spec_witness :
    ([2, 1] : List ℕ).length ≤
      ((Hypergraph.init 2 : Hypergraph ℕ).addEdge [1]).numVertices ∧
    (((Hypergraph.init 2 : Hypergraph ℕ).addEdge [1]).isIndependentSetChecked
        [2, 1] =
      Except.ok (((Hypergraph.init 2 : Hypergraph ℕ).addEdge
        [1]).isIndependentSet [2, 1]) ∧
    (((Hypergraph.init 2 : Hypergraph ℕ).addEdge [1]).isIndependentSet [2, 1] =
        true ↔
      ∀ i, 1 ≤ i → i ≤ ([2, 1] : List ℕ).length →
        ∀ edge ∈ ((Hypergraph.init 2 : Hypergraph ℕ).addEdge [1]).E i,
          ¬ edge ⊆ [2, 1])) :=
  ⟨by decide, isIndependentSet_spec _ [2, 1] (by decide)⟩

/-! ## Claim C3 : the feasibility predicate `isForbidden` -/

theorem forbLoop_iff {P A : Type} [Zero A] [Add A] [LinearOrder A]
    [DecidableEq P] (intf : P → P → A)
    (rnd : A → A) (beta : A) (W : List P) :
    ∀ L : List P, forbLoop intf rnd beta W L = true ↔
      ∃ w ∈ L, beta ≤ rnd (Energy intf (W.erase w) w) := by
  intro L
  induction L with
  | nil => simp [forbLoop]
  | cons w rest ih =>
    unfold forbLoop
    by_cases hw : beta ≤ rnd (Energy intf (W.erase w) w)
    · rw [if_pos hw]
      simp only [true_iff]
      exact ⟨w, List.mem_cons_self w rest, hw⟩
    · rw [if_neg hw, ih]
      constructor
      · rintro ⟨x, hx, h⟩
        exact ⟨x, List.mem_cons_of_mem w hx, h⟩
      · rintro ⟨x, hx, h⟩
        rcases List.mem_cons.mp hx with rfl | hx
        · exact absurd h hw
        · exact ⟨x, hx, h⟩

/-- Empty and singleton location lists are never forbidden when the
threshold is positive and rounding fixes 0 (`round(0.0, 3) = 0.0`). -/
theorem isForbidden_short {P A : Type} [Zero A] [Add A] [LinearOrder A]
    [DecidableEq P] (intf : P → P → A)
    (rnd : A → A) (beta : A) (W : List P) (hrnd : rnd 0 = 0)
    (hbeta : 0 < beta) (hlen : W.length ≤ 1) :
    isForbidden intf rnd beta W = false := by
  match W, hlen with
  | [], _ => rfl
  | [w], _ =>
    show forbLoop intf rnd beta [w] [w] = false
    unfold forbLoop
    rw [if_neg]
    · rfl
    · rw [List.erase_cons_head]
      show ¬ beta ≤ rnd (Energy intf [] w)
      have h0 : Energy intf [] w = 0 := rfl
      rw [h0, hrnd]
      exact not_le.mpr hbeta

/-- C3.  For every pairwise-distinct list of locations `W`,
`isForbidden` returns `true` iff some receiver `w` of `W` has rounded
total interference from the other stations (the list `W` with the — by
distinctness unique — occurrence of `w` removed) at least `beta`; the
scan visits the receivers in input order and stops at the first witness.
Moreover, when `rnd 0 = 0` (Python rounding of the energy `0` of no
senders) and `beta > 0`, the empty and singleton lists are never
forbidden, and the Lean model is total, so no fault occurs. -/
theorem isForbidden_spec {P A : Type} [Zero A] [Add A] [LinearOrder A]
    [DecidableEq P] (intf : P → P → A)
    (rnd : A → A) (beta : A) (W : List P) (hW : W.Nodup) :
    (isForbidden intf rnd beta W = true ↔
      ∃ w ∈ W, beta ≤ rnd (Energy intf (W.erase w) w)) ∧
    (rnd 0 = 0 → 0 < beta → W.length ≤ 1 →
      isForbidden intf rnd beta W = false) := by
  refine ⟨forbLoop_iff intf rnd beta W W, ?_⟩
  intro hrnd hbeta hlen
  exact isForbidden_short intf rnd beta W hrnd hbeta hlen

/-- Witness for C3 with two rational stations, unit interference,
identity rounding and threshold 1. -/
theorem isForbidden_spec_witness :
    ([(0 : ℚ), 1] : List ℚ).Nodup ∧
    ((isForbidden (fun _ _ => (1 : ℚ)) id 1 [(0 : ℚ), 1] = true ↔
      ∃ w ∈ ([(0 : ℚ), 1] : List ℚ),
        (1 : ℚ) ≤ id (Energy (fun _ _ => (1 : ℚ))
          (([(0 : ℚ), 1] : List ℚ).erase w) w)) ∧
    (id (0 : ℚ) = 0 → (0 : ℚ) < 1 → ([(0 : ℚ), 1] : List ℚ).length ≤ 1 →
      isForbidden (fun _ _ => (1 : ℚ)) id 1 [(0 : ℚ), 1] = false)) :=
  ⟨by decide, isForbidden_spec (fun _ _ => (1 : ℚ)) id 1 [(0 : ℚ), 1] (by decide)⟩

/-! ## Claim C9 : well-formedness of the level sets -/

theorem sortEdge_perm (e : List ℕ) : List.Perm (sortEdge e) e :=
  List.perm_insertionSort (· ≤ ·) e

theorem sortEdge_pairwise_lt (e : List ℕ) (he : e.Nodup) :
    (sortEdge e).Pairwise (· < ·) := by
  have hs : (sortEdge e).Pairwise (· ≤ ·) := List.sorted_insertionSort (· ≤ ·) e
  have hn : (sortEdge e).Nodup := (sortEdge_perm e).nodup_iff.mpr he
  exact (hs.and hn).imp (fun h => lt_of_le_of_ne h.1 h.2)

/-- Arguments under which an operation runs the happy insertion path of
the source: `addEdge` is fed a duplicate-free list; `removeEdge` and
`removeSupersetsOf` accept anything. -/
def okOp : HOp → Prop
  | HOp.add e => e.Nodup
  | HOp.rem _ => True
  | HOp.rsup _ => True

theorem WF_init {P : Type} [Inhabited P] (N : ℕ) :
    WF (Hypergraph.init N : Hypergraph P) :=
  ⟨fun _ t ht => absurd ht (List.not_mem_nil t), fun _ => List.nodup_nil⟩

theorem WF_addEdge {P : Type} {H : Hypergraph P} (hH : WF H) (e : List ℕ)
    (he : e.Nodup) : WF (H.addEdge e) := by
  unfold Hypergraph.addEdge
  split
  · exact hH
  · rename_i hmem
    constructor
    · intro k t ht
      dsimp only at ht
      rw [Function.update_apply] at ht
      by_cases hk : k = (sortEdge e).length
      · rw [if_pos hk] at ht
        rcases List.mem_append.mp ht with h | h
        · exact hk ▸ hH.1 _ t h
        · rw [List.mem_singleton.mp h, hk]
          exact ⟨rfl, sortEdge_pairwise_lt e he⟩
      · rw [if_neg hk] at ht
        exact hH.1 k t ht
    · intro k
      dsimp only
      rw [Function.update_apply]
      by_cases hk : k = (sortEdge e).length
      · rw [if_pos hk]
        refine (hH.2 _).append (List.nodup_singleton _) ?_
        intro t ht hts
        rw [List.mem_singleton.mp hts] at ht
        exact hmem ht
      · rw [if_neg hk]
        exact hH.2 k

theorem WF_removeEdge {P : Type} {H : Hypergraph P} (hH : WF H) (e : List ℕ) :
    WF (H.removeEdge e) := by
  unfold Hypergraph.removeEdge
  split
  · constructor
    · intro k t ht
      dsimp only at ht
      rw [Function.update_apply] at ht
      by_cases hk : k = (sortEdge e).length
      · rw [if_pos hk] at ht
        exact hk ▸ hH.1 _ t (List.mem_of_mem_erase ht)
      · rw [if_neg hk] at ht
        exact hH.1 k t ht
    · intro k
      dsimp only
      rw [Function.update_apply]
      by_cases hk : k = (sortEdge e).length
      · rw [if_pos hk]
        exact (hH.2 _).erase _
      · rw [if_neg hk]
        exact hH.2 k
  · exact hH

theorem WF_removeSupersetsOf {P : Type} {H : Hypergraph P} (hH : WF H)
    (e : List ℕ) : WF (H.removeSupersetsOf e) := by
  constructor
  · intro k t ht
    rw [H.removeSupersetsOf_E e k] at ht
    split at ht
    · exact hH.1 k t (List.mem_of_mem_filter ht)
    · exact hH.1 k t ht
  · intro k
    rw [H.removeSupersetsOf_E e k]
    split
    · exact (hH.2 k).filter _
    · exact hH.2 k

theorem WF_applyOp {P : Type} {H : Hypergraph P} (hH : WF H) (op : HOp)
    (hop : okOp op) : WF (applyOp H op) := by
  cases op with
  | add e =>
    show WF (if e ≠ [] ∧ e.length ≤ H.numVertices then H.addEdge e else H)
    split
    · exact WF_addEdge hH e hop
    · exact hH
  | rem e =>
    show WF (if e.length ≤ H.numVertices then H.removeEdge e else H)
    split
    · exact WF_removeEdge hH e
    · exact hH
  | rsup e => exact WF_removeSupersetsOf hH e

theorem WF_applyOps {P : Type} :
    ∀ (ops : List HOp) (H : Hypergraph P), WF H → (∀ op ∈ ops, okOp op) →
      WF (applyOps H ops) := by
  intro ops
  induction ops with
  | nil => intro H hH _; exact hH
  | cons op rest ih =>
    intro H hH hops
    exact ih (applyOp H op)
      (WF_applyOp hH op (hops op (List.mem_cons_self op rest)))
      (fun o ho => hops o (List.mem_cons_of_mem op ho))

/-- C9 counterexample.  The claim admits arbitrary vertex-list arguments,
but `addEdge([1,1])` on a 2-vertex hypergraph inserts the tuple `(1,1)`
into level set 2: a sorted tuple of length 2 that does *not* consist of
2 distinct vertices (Python's `tuple(sorted(e))` keeps duplicates), so
the well-formedness invariant fails. -/
theorem levelSet_wf_cex :
    [1, 1] ∈ (applyOps (Hypergraph.init 2 : Hypergraph ℕ)
      [HOp.add [1, 1]]).E 2 ∧
    ¬ ([1, 1] : List ℕ).Nodup ∧
    ¬ WF (applyOps (Hypergraph.init 2 : Hypergraph ℕ) [HOp.add [1, 1]]) := by
  refine ⟨by decide, by decide, ?_⟩
  intro hWF
  have h := (hWF.1 2 [1, 1] (by decide)).2
  have : (1 : ℕ) < 1 :=
    (List.pairwise_cons.mp h).1 1 (List.mem_singleton.mpr rfl)
  exact absurd this (lt_irrefl 1)

/-- C9 (amended).  Starting from `Hypergraph(N)` and applying any
sequence of `addEdge` / `removeEdge` / `removeSupersetsOf` calls whose
`addEdge` arguments are duplicate-free (arbitrary `removeEdge` and
`removeSupersetsOf` arguments; a call that raises in Python leaves the
state unchanged), every element of `E k` is a sorted tuple of exactly
`k` distinct vertices and no level set contains duplicate tuples. -/
theorem levelSet_wf {P : Type} [Inhabited P] (N : ℕ) (ops : List HOp)
    (hops : ∀ op ∈ ops, okOp op) :
    WF (applyOps (Hypergraph.init N : Hypergraph P) ops) :=
  WF_applyOps ops _ (WF_init N) hops

/-- Witness for C9: one insertion, one pruning, one removal. -/
theorem levelSet_wf_witness :
    (∀ op ∈ [HOp.add [2, 1], HOp.rsup [1], HOp.rem [1, 2]], okOp op) ∧
    WF (applyOps (Hypergraph.init 2 : Hypergraph ℕ)
      [HOp.add [2, 1], HOp.rsup [1], HOp.rem [1, 2]]) := by
  have hops : ∀ op ∈ [HOp.add [2, 1], HOp.rsup [1], HOp.rem [1, 2]], okOp op := by
    intro op hop
    rcases List.mem_cons.mp hop with rfl | hop
    · exact (by decide : ([2, 1] : List ℕ).Nodup)
    · rcases List.mem_cons.mp hop with rfl | hop
      · exact trivial
      · rcases List.mem_cons.mp hop with rfl | hop
        · exact trivial
        · cases hop
  exact ⟨hops, levelSet_wf 2 _ hops⟩

/-! ## Analysis of `GenerateHypergraph` (claims C1 and C2)

The generation loop is analysed for an arbitrary Boolean predicate `fb`
on index tuples; in the claims, `fb W` is `isForbidden` applied to the
locations of `W`. -/

/-- Level-`k` candidate tuples: every sorted `k`-subset of `[1..N]`
(`itertools.combinations(range(1, N+1), k)` up to enumeration order). -/
def cand (N k : ℕ) : List (List ℕ) :=
  List.sublistsLen k (List.Ico 1 (N + 1))

/-- `W` is forbidden and no proper sub-tuple of size at least 2 is
forbidden: exactly the tuples the generation loop confirms as edges. -/
def minForb (fb : List ℕ → Bool) (W : List ℕ) : Bool :=
  fb W && W.sublists'.all fun g =>
    decide (g = W) || decide (g.length < 2) || ! fb g

/-- `f` has no confirmed sub-tuple of size `2..m`: exactly the tuples
still alive above the already processed levels `2..m`. -/
def survB (fb : List ℕ → Bool) (m : ℕ) (f : List ℕ) : Bool :=
  f.sublists'.all fun g =>
    decide (g.length < 2) || decide (m < g.length) || ! minForb fb g

/-- Sequential pruning by a list of confirmed tuples, as performed by the
level-`k` pass of the generation loop. -/
def pruneList {P : Type} (H : Hypergraph P) (F : List (List ℕ)) : Hypergraph P :=
  F.foldl Hypergraph.removeSupersetsOf H

theorem minForb_iff (fb : List ℕ → Bool) (W : List ℕ) :
    minForb fb W = true ↔
      fb W = true ∧
      ∀ g, g.Sublist W → g ≠ W → 2 ≤ g.length → fb g = false := by
  unfold minForb
  simp only [Bool.and_eq_true, List.all_eq_true, List.mem_sublists',
    Bool.or_eq_true, decide_eq_true_eq, Bool.not_eq_true']
  constructor
  · rintro ⟨h1, h2⟩
    exact ⟨h1, fun g hg hne hlen =>
      (h2 g hg).resolve_left (not_or.mpr ⟨hne, Nat.not_lt.mpr hlen⟩)⟩
  · rintro ⟨h1, h2⟩
    refine ⟨h1, fun g hg => ?_⟩
    by_cases hne : g = W
    · exact Or.inl (Or.inl hne)
    by_cases hlen : g.length < 2
    · exact Or.inl (Or.inr hlen)
    · exact Or.inr (h2 g hg hne (Nat.not_lt.mp hlen))

theorem survB_iff (fb : List ℕ → Bool) (m : ℕ) (f : List ℕ) :
    survB fb m f = true ↔
      ∀ g, g.Sublist f → 2 ≤ g.length → g.length ≤ m → minForb fb g = false := by
  unfold survB
  simp only [List.all_eq_true, List.mem_sublists', Bool.or_eq_true,
    decide_eq_true_eq, Bool.not_eq_true']
  constructor
  · intro h g hg h2 hm
    exact (h g hg).resolve_left
      (not_or.mpr ⟨Nat.not_lt.mpr h2, Nat.not_lt.mpr hm⟩)
  · intro h g hg
    by_cases h2 : g.length < 2
    · exact Or.inl (Or.inl h2)
    by_cases hm : m < g.length
    · exact Or.inl (Or.inr hm)
    · exact Or.inr (h g hg (Nat.not_lt.mp h2) (Nat.not_lt.mp hm))

/-- Every forbidden tuple of size at least 2 holds a sub-tuple that the
generation loop confirms (a minimal one). -/
theorem exists_minForb_sublist (fb : List ℕ → Bool) :
    ∀ (n : ℕ) (g : List ℕ), g.length ≤ n → fb g = true → 2 ≤ g.length →
      ∃ h, h.Sublist g ∧ 2 ≤ h.length ∧ minForb fb h = true := by
  intro n
  induction n with
  | zero => intro g hg _ h2; omega
  | succ n ih =>
    intro g hg hfb h2
    by_cases hmin : minForb fb g = true
    · exact ⟨g, List.Sublist.refl g, h2, hmin⟩
    · have : ∃ g', g'.Sublist g ∧ g' ≠ g ∧ 2 ≤ g'.length ∧ fb g' = true := by
        by_contra hno
        push_neg at hno
        refine hmin ((minForb_iff fb g).mpr ⟨hfb, fun g' hg' hne hlen => ?_⟩)
        rcases Bool.eq_false_or_eq_true (fb g') with h | h
        · exact absurd h (hno g' hg' hne hlen)
        · exact h
      obtain ⟨g', hsub, hne, hlen, hfb'⟩ := this
      have hlt : g'.length < g.length :=
        lt_of_le_of_ne hsub.length_le (fun h => hne (hsub.eq_of_length h))
      obtain ⟨h, hh, hh2, hhmin⟩ := ih g' (by omega) hfb' hlen
      exact ⟨h, hh.trans hsub, hh2, hhmin⟩

/-- Two strictly increasing tuples related by set inclusion are related
as subsequences. -/
theorem sublist_of_subset_sorted {u v : List ℕ} (hu : u.Pairwise (· < ·))
    (hv : v.Pairwise (· < ·)) (hsub : u ⊆ v) : u.Sublist v := by
  have hnd : u.Nodup := hu.imp ne_of_lt
  exact List.sublist_of_subperm_of_sorted
    (List.subperm_of_subset hnd hsub)
    (hu.imp le_of_lt) (hv.imp le_of_lt)

theorem mem_cand_iff {N k : ℕ} {t : List ℕ} :
    t ∈ cand N k ↔ t.Sublist (List.Ico 1 (N + 1)) ∧ t.length = k :=
  List.mem_sublistsLen

theorem cand_pairwise_lt {N k : ℕ} {t : List ℕ} (h : t ∈ cand N k) :
    t.Pairwise (· < ·) :=
  List.Pairwise.sublist (mem_cand_iff.mp h).1 (List.Ico.pairwise_lt 1 (N + 1))

theorem cand_nodup (N k : ℕ) : (cand N k).Nodup :=
  (List.sublistsLen_sublist_sublists' k (List.Ico 1 (N + 1))).nodup
    (List.nodup_sublists'.mpr (List.Ico.nodup 1 (N + 1)))

/-- The confirmation test of level `k`: among the still-alive candidates,
forbidden is the same as minimal-forbidden. -/
theorem confirm_eq_minForb (fb : List ℕ → Bool) {k : ℕ} (hk : 2 ≤ k)
    (W : List ℕ) (hW : W.length = k) :
    (fb W && survB fb (k - 1) W) = minForb fb W := by
  rw [Bool.eq_iff_iff, Bool.and_eq_true, survB_iff, minForb_iff]
  constructor
  · rintro ⟨h1, h2⟩
    refine ⟨h1, fun g hg hne h2g => ?_⟩
    rcases Bool.eq_false_or_eq_true (fb g) with hfb | hfb
    · exfalso
      have hle := hg.length_le
      have hlt : g.length < k := by
        rcases lt_or_eq_of_le hle with h | h
        · omega
        · exact absurd (hg.eq_of_length (by omega)) hne
      obtain ⟨h, hsub, hh2, hmin⟩ :=
        exists_minForb_sublist fb g.length g le_rfl hfb h2g
      have hlen : h.length ≤ k - 1 := by
        have := hsub.length_le
        omega
      have := h2 h (hsub.trans hg) hh2 hlen
      exact absurd hmin (by simp [this])
    · exact hfb
  · rintro ⟨h1, h2⟩
    refine ⟨h1, fun g hg h2g hgk => ?_⟩
    have hne : g ≠ W := by
      intro h
      subst h
      omega
    have hfb := h2 g hg hne h2g
    rcases Bool.eq_false_or_eq_true (minForb fb g) with hm | hm
    · exact absurd ((minForb_iff fb g).mp hm).1 (by simp [hfb])
    · exact hm

/-- The pruning performed while confirming the level-`k` edges turns the
no-confirmed-subtuple bound `k - 1` of a live higher-level candidate into
the bound `k`. -/
theorem prune_surv_eq (fb : List ℕ → Bool) {N k j : ℕ} (hk : 2 ≤ k)
    (_hkj : k < j) (f : List ℕ) (hf : f ∈ cand N j) :
    (((cand N k).filter (minForb fb)).all
        (fun W => ! W.all (fun x => decide (x ∈ f))) && survB fb (k - 1) f)
      = survB fb k f := by
  rw [Bool.eq_iff_iff, Bool.and_eq_true, survB_iff, survB_iff]
  have hfp : f.Pairwise (· < ·) := cand_pairwise_lt hf
  have hfI : f.Sublist (List.Ico 1 (N + 1)) := (mem_cand_iff.mp hf).1
  constructor
  · rintro ⟨hall, hsurv⟩ g hg h2 hgk
    by_cases hk1 : g.length ≤ k - 1
    · exact hsurv g hg h2 hk1
    · have hglen : g.length = k := by omega
      rcases Bool.eq_false_or_eq_true (minForb fb g) with hm | hm
      · exfalso
        have hgc : g ∈ cand N k := mem_cand_iff.mpr ⟨hg.trans hfI, hglen⟩
        have hmem : g ∈ (cand N k).filter (minForb fb) :=
          List.mem_filter.mpr ⟨hgc, hm⟩
        have hng := List.all_eq_true.mp hall g hmem
        rw [Bool.not_eq_true'] at hng
        have hyes : (g.all fun x => decide (x ∈ f)) = true :=
          List.all_eq_true.mpr
            (fun x hx => decide_eq_true_iff.mpr (hg.subset hx))
        exact absurd hyes (by simp [hng])
      · exact hm
  · intro hsurv
    constructor
    · rw [List.all_eq_true]
      intro W hW
      rw [List.mem_filter] at hW
      obtain ⟨hWc, hWm⟩ := hW
      rw [Bool.not_eq_true']
      rcases Bool.eq_false_or_eq_true (W.all fun x => decide (x ∈ f))
        with ha | ha
      · exfalso
        have hWsub : W ⊆ f := fun x hx =>
          decide_eq_true_iff.mp (List.all_eq_true.mp ha x hx)
        have hWsl : W.Sublist f :=
          sublist_of_subset_sorted (cand_pairwise_lt hWc) hfp hWsub
        have hWlen : W.length = k := (mem_cand_iff.mp hWc).2
        have := hsurv W hWsl (by omega) (by omega)
        exact absurd hWm (by simp [this])
      · exact ha
    · intro g hg h2 hgk1
      exact hsurv g hg h2 (by omega)

namespace Hypergraph

variable {P : Type}

theorem setLevelSet_E (H : Hypergraph P) (k : ℕ) (F : List (List ℕ)) (j : ℕ) :
    (H.setLevelSet k F).E j = if j = k then F else H.E j := by
  unfold setLevelSet
  exact Function.update_apply H.E k F j

theorem setLevelSet_numVertices (H : Hypergraph P) (k : ℕ)
    (F : List (List ℕ)) : (H.setLevelSet k F).numVertices = H.numVertices :=
  rfl

theorem setLevelSet_location (H : Hypergraph P) (k : ℕ) (F : List (List ℕ)) :
    (H.setLevelSet k F).location = H.location :=
  rfl

end Hypergraph

theorem pruneList_numVertices {P : Type} :
    ∀ (F : List (List ℕ)) (H : Hypergraph P),
      (pruneList H F).numVertices = H.numVertices := by
  intro F
  induction F with
  | nil => intro H; rfl
  | cons W F ih =>
    intro H
    show (pruneList (H.removeSupersetsOf W) F).numVertices = H.numVertices
    rw [ih, H.removeSupersetsOf_numVertices W]

theorem pruneList_location {P : Type} :
    ∀ (F : List (List ℕ)) (H : Hypergraph P),
      (pruneList H F).location = H.location := by
  intro F
  induction F with
  | nil => intro H; rfl
  | cons W F ih =>
    intro H
    show (pruneList (H.removeSupersetsOf W) F).location = H.location
    rw [ih, H.removeSupersetsOf_location W]

theorem pruneList_E_of_len {P : Type} (k : ℕ) :
    ∀ (F : List (List ℕ)) (H : Hypergraph P), (∀ W ∈ F, W.length = k) →
      ∀ j, (pruneList H F).E j =
        if k < j ∧ j ≤ H.numVertices then
          (H.E j).filter
            (fun f => F.all (fun W => ! W.all (fun x => decide (x ∈ f))))
        else H.E j := by
  intro F
  induction F with
  | nil =>
    intro H _ j
    show H.E j = _
    split
    · simp
    · rfl
  | cons W F ih =>
    intro H hlen j
    have hW : W.length = k := hlen W (List.mem_cons_self W F)
    show (pruneList (H.removeSupersetsOf W) F).E j = _
    rw [ih (H.removeSupersetsOf W)
      (fun t ht => hlen t (List.mem_cons_of_mem W ht)) j,
      H.removeSupersetsOf_numVertices W]
    by_cases hc : k < j ∧ j ≤ H.numVertices
    · rw [if_pos hc, if_pos hc, H.removeSupersetsOf_E W j, hW,
        if_pos hc, List.filter_filter]
      apply List.filter_congr
      intro f _
      rw [List.all_cons, Bool.and_comm]
    · rw [if_neg hc, if_neg hc, H.removeSupersetsOf_E W j, hW, if_neg hc]

/-- Closed form of the level pass of `GenerateHypergraph`: folding the
confirm-and-prune step over a candidate list accumulates the forbidden
candidates and prunes by exactly those, the location data never
changing. -/
theorem genFold {P A : Type} [Zero A] [Add A] [LinearOrder A]
    [DecidableEq P] (intf : P → P → A) (rnd : A → A)
    (beta : A) (l : ℕ → P) :
    ∀ (L : List (List ℕ)) (acc : List (List ℕ)) (Hc : Hypergraph P),
      Hc.location = l →
      L.foldl (fun (acc : List (List ℕ) × Hypergraph P) W =>
        if isForbidden intf rnd beta (W.map acc.2.getLocation) = true then
          (acc.1 ++ [W], acc.2.removeSupersetsOf W)
        else acc) (acc, Hc) =
      (acc ++ L.filter (fun W => isForbidden intf rnd beta (W.map l)),
       pruneList Hc (L.filter (fun W => isForbidden intf rnd beta (W.map l)))) := by
  intro L
  induction L with
  | nil => intro acc Hc _; simp [pruneList]
  | cons W L ih =>
    intro acc Hc hloc
    rw [List.foldl_cons]
    have hmap : W.map Hc.getLocation = W.map l := by
      unfold Hypergraph.getLocation
      rw [hloc]
    by_cases hf : isForbidden intf rnd beta (W.map l) = true
    · rw [if_pos (by rw [hmap]; exact hf)]
      rw [ih (acc ++ [W]) (Hc.removeSupersetsOf W)
        (by rw [Hc.removeSupersetsOf_location W, hloc])]
      have hfil : (W :: L).filter
          (fun W => isForbidden intf rnd beta (W.map l)) =
          W :: L.filter (fun W => isForbidden intf rnd beta (W.map l)) := by
        rw [List.filter_cons, if_pos hf]
      rw [hfil]
      simp only [pruneList, List.foldl_cons, List.append_assoc,
        List.singleton_append]
    · rw [if_neg (by rw [hmap]; exact hf)]
      have hfil : (W :: L).filter
          (fun W => isForbidden intf rnd beta (W.map l)) =
          L.filter (fun W => isForbidden intf rnd beta (W.map l)) := by
        rw [List.filter_cons, if_neg hf]
      rw [ih acc Hc hloc, hfil]

/-- Closed form of `genStep`. -/
theorem genStep_eq {P A : Type} [Zero A] [Add A] [LinearOrder A]
    [DecidableEq P] (intf : P → P → A)
    (rnd : A → A) (beta : A) (H : Hypergraph P) (k : ℕ) :
    genStep intf rnd beta H k =
      (pruneList H ((H.E k).filter
        (fun W => isForbidden intf rnd beta (W.map H.location)))).setLevelSet k
        ((H.E k).filter
          (fun W => isForbidden intf rnd beta (W.map H.location))) := by
  unfold genStep Hypergraph.getEdgesLevelSet
  rw [genFold intf rnd beta H.location (H.E k) [] H rfl]
  rw [List.nil_append]

/-- The invariant carried by the main loop of `GenerateHypergraph` after
all levels up to `m` have been processed: processed level sets hold the
minimal forbidden candidates, unprocessed ones hold the candidates that
have no confirmed sub-tuple of size at most `m`, everything else is
empty, and the vertex count and locations are those installed at the
start. -/
structure GenInv {P : Type} (N : ℕ) (l : ℕ → P) (fb : List ℕ → Bool)
    (m : ℕ) (H : Hypergraph P) : Prop where
  nv : H.numVertices = N
  loc : H.location = l
  lo : ∀ i, i < 2 ∨ N < i → H.E i = []
  done : ∀ k, 2 ≤ k → k ≤ m → H.E k = (cand N k).filter (minForb fb)
  todo : ∀ i, m < i → i ≤ N → H.E i = (cand N i).filter (survB fb m)

/-- One pass of the main loop advances the invariant from `m` to `m+1`. -/
theorem genStep_inv {P A : Type} [Zero A] [Add A] [LinearOrder A]
    [DecidableEq P] (intf : P → P → A)
    (rnd : A → A) (beta : A) {N m : ℕ} {l : ℕ → P} {H : Hypergraph P}
    (hm : 1 ≤ m) (hmN : m + 1 ≤ N)
    (hInv : GenInv N l (fun W => isForbidden intf rnd beta (W.map l)) m H) :
    GenInv N l (fun W => isForbidden intf rnd beta (W.map l)) (m + 1)
      (genStep intf rnd beta H (m + 1)) := by
  have hk2 : 2 ≤ m + 1 := by omega
  have hEk : H.E (m + 1) =
      (cand N (m + 1)).filter
        (survB (fun W => isForbidden intf rnd beta (W.map l)) m) :=
    hInv.todo (m + 1) (by omega) hmN
  have hLf : (H.E (m + 1)).filter
      (fun W => isForbidden intf rnd beta (W.map H.location)) =
      (cand N (m + 1)).filter
        (minForb (fun W => isForbidden intf rnd beta (W.map l))) := by
    rw [hInv.loc, hEk, List.filter_filter]
    apply List.filter_congr
    intro W hW
    have hWlen : W.length = m + 1 := (mem_cand_iff.mp hW).2
    have h := confirm_eq_minForb
      (fun W => isForbidden intf rnd beta (W.map l)) hk2 W hWlen
    simpa using h
  have hLflen : ∀ W ∈ (H.E (m + 1)).filter
      (fun W => isForbidden intf rnd beta (W.map H.location)),
      W.length = m + 1 := by
    intro W hW
    rw [hLf, List.mem_filter] at hW
    exact (mem_cand_iff.mp hW.1).2
  rw [genStep_eq]
  refine ⟨?_, ?_, ?_, ?_, ?_⟩
  · rw [Hypergraph.setLevelSet_numVertices, pruneList_numVertices, hInv.nv]
  · rw [Hypergraph.setLevelSet_location, pruneList_location, hInv.loc]
  · intro i hi
    rw [Hypergraph.setLevelSet_E]
    have hne : i ≠ m + 1 := by omega
    rw [if_neg hne, pruneList_E_of_len (m + 1) _ _ hLflen, hInv.nv]
    rw [if_neg (by omega)]
    exact hInv.lo i hi
  · intro k hk2' hkm
    rw [Hypergraph.setLevelSet_E]
    by_cases hkeq : k = m + 1
    · rw [if_pos hkeq, hLf, hkeq]
    · have hkm' : k ≤ m := by omega
      rw [if_neg hkeq, pruneList_E_of_len (m + 1) _ _ hLflen, hInv.nv]
      rw [if_neg (by omega)]
      exact hInv.done k hk2' hkm'
  · intro i hi hiN
    rw [Hypergraph.setLevelSet_E, if_neg (by omega : i ≠ m + 1),
      pruneList_E_of_len (m + 1) _ _ hLflen, hInv.nv, if_pos ⟨by omega, hiN⟩]
    rw [hInv.todo i (by omega) hiN, List.filter_filter]
    apply List.filter_congr
    intro f hf
    rw [hLf]
    have h := prune_surv_eq
      (fun W => isForbidden intf rnd beta (W.map l))
      hk2 (by omega : m + 1 < i) f hf
    simpa using h

/-! ## The initial state of the generation -/

theorem foldl_setLocation_frame {P : Type} [Inhabited P] (S : List P) :
    ∀ (idx : List ℕ) (H : Hypergraph P),
      ((idx.foldl (fun H i => H.setLocation (i + 1) (S.getD i default)) H).E
          = H.E) ∧
      ((idx.foldl (fun H i => H.setLocation (i + 1) (S.getD i default))
          H).numVertices = H.numVertices) := by
  intro idx
  induction idx with
  | nil => intro H; exact ⟨rfl, rfl⟩
  | cons i idx ih =>
    intro H
    rw [List.foldl_cons]
    exact ih (H.setLocation (i + 1) (S.getD i default))

theorem addEdges_fresh {P : Type} :
    ∀ (F : List (List ℕ)) (H : Hypergraph P) (k : ℕ),
      (∀ t ∈ F, sortEdge t = t ∧ t.length = k) → F.Nodup →
      (∀ t ∈ F, t ∉ H.E k) →
      (H.addEdges F).E = Function.update H.E k (H.E k ++ F) ∧
      (H.addEdges F).numVertices = H.numVertices ∧
      (H.addEdges F).location = H.location := by
  intro F
  induction F with
  | nil =>
    intro H k _ _ _
    refine ⟨?_, rfl, rfl⟩
    rw [List.append_nil, Function.update_eq_self]
    rfl
  | cons t F ih =>
    intro H k hst hnd hfresh
    obtain ⟨hsort, hlen⟩ := hst t (List.mem_cons_self t F)
    have haddE : (H.addEdge t).E =
        Function.update H.E k (H.E k ++ [t]) := by
      unfold Hypergraph.addEdge
      rw [hsort, hlen, if_neg (hfresh t (List.mem_cons_self t F))]
    have haddnv : (H.addEdge t).numVertices = H.numVertices := by
      unfold Hypergraph.addEdge
      split <;> rfl
    have haddloc : (H.addEdge t).location = H.location := by
      unfold Hypergraph.addEdge
      split <;> rfl
    have hstep : Hypergraph.addEdges H (t :: F) =
        Hypergraph.addEdges (H.addEdge t) F := rfl
    rw [List.nodup_cons] at hnd
    have hEk : (H.addEdge t).E k = H.E k ++ [t] := by
      rw [haddE, Function.update_same]
    obtain ⟨hE, hnv, hloc⟩ := ih (H.addEdge t) k
      (fun u hu => hst u (List.mem_cons_of_mem t hu)) hnd.2
      (fun u hu hmem => by
        rw [hEk] at hmem
        rcases List.mem_append.mp hmem with h | h
        · exact hfresh u (List.mem_cons_of_mem t hu) h
        · exact hnd.1 (List.mem_singleton.mp h ▸ hu))
    refine ⟨?_, by rw [hstep, hnv, haddnv], by rw [hstep, hloc, haddloc]⟩
    rw [hstep, hE, hEk, haddE]
    funext j
    rw [Function.update_apply, Function.update_apply, Function.update_apply]
    by_cases hj : j = k
    · rw [if_pos hj, if_pos hj]
      rw [List.append_assoc, List.singleton_append]
    · rw [if_neg hj, if_neg hj, if_neg hj]

theorem cand_sorted_fresh {N k : ℕ} :
    ∀ t ∈ cand N k, sortEdge t = t ∧ t.length = k := by
  intro t ht
  refine ⟨?_, (mem_cand_iff.mp ht).2⟩
  have : t.Pairwise (· ≤ ·) := (cand_pairwise_lt ht).imp le_of_lt
  exact List.Sorted.insertionSort_eq this

theorem addLevels_E {P : Type} (N : ℕ) :
    ∀ (ks : List ℕ) (H : Hypergraph P), ks.Nodup →
      (∀ k ∈ ks, H.E k = []) →
      ((ks.foldl (fun H k => H.addEdges (cand N k)) H).E
          = fun j => if j ∈ ks then cand N j else H.E j) ∧
      ((ks.foldl (fun H k => H.addEdges (cand N k)) H).numVertices
          = H.numVertices) ∧
      ((ks.foldl (fun H k => H.addEdges (cand N k)) H).location
          = H.location) := by
  intro ks
  induction ks with
  | nil =>
    intro H _ _
    refine ⟨?_, rfl, rfl⟩
    funext j
    simp
  | cons k ks ih =>
    intro H hnd hempty
    rw [List.nodup_cons] at hnd
    rw [List.foldl_cons]
    obtain ⟨hE, hnv, hloc⟩ := addEdges_fresh (cand N k) H k
      cand_sorted_fresh (cand_nodup N k)
      (fun t _ ht => by
        rw [hempty k (List.mem_cons_self k ks)] at ht
        cases ht)
    obtain ⟨hE', hnv', hloc'⟩ := ih (H.addEdges (cand N k)) hnd.2
      (fun k' hk' => by
        rw [hE, Function.update_apply,
          if_neg (fun (h : k' = k) => hnd.1 (h ▸ hk')),
          hempty k' (List.mem_cons_of_mem k hk')])
    refine ⟨?_, by rw [hnv', hnv], by rw [hloc', hloc]⟩
    rw [hE']
    funext j
    by_cases hj : j ∈ ks
    · rw [if_pos hj, if_pos (List.mem_cons_of_mem k hj)]
    · rw [if_neg hj, hE, Function.update_apply]
      by_cases hjk : j = k
      · rw [if_pos hjk, if_pos (by rw [hjk]; exact List.mem_cons_self k ks)]
        rw [hempty k (List.mem_cons_self k ks), List.nil_append, hjk]
      · rw [if_neg hjk, if_neg (by
          intro h
          rcases List.mem_cons.mp h with h | h
          · exact hjk h
          · exact hj h)]

/-- Advancing the invariant over a run of consecutive levels. -/
theorem genLoop_final {P A : Type} [Zero A] [Add A] [LinearOrder A]
    [DecidableEq P] (intf : P → P → A)
    (rnd : A → A) (beta : A) (N : ℕ) (l : ℕ → P) :
    ∀ (len m : ℕ) (H : Hypergraph P), 1 ≤ m → m + len ≤ N →
      GenInv N l (fun W => isForbidden intf rnd beta (W.map l)) m H →
      GenInv N l (fun W => isForbidden intf rnd beta (W.map l)) (m + len)
        ((List.Ico (m + 1) (m + 1 + len)).foldl (genStep intf rnd beta) H) := by
  have hIco : ∀ a b : ℕ, List.Ico a (a + b) = List.range' a b := by
    intro a b
    unfold List.Ico
    rw [Nat.add_sub_cancel_left]
  intro len
  induction len with
  | zero =>
    intro m H hm _ hInv
    rw [hIco (m + 1) 0]
    exact hInv
  | succ len ih =>
    intro m H hm hlen hInv
    rw [hIco (m + 1) (len + 1), List.range'_succ, List.foldl_cons]
    have hstep := genStep_inv intf rnd beta hm (by omega) hInv
    have h := ih (m + 1) (genStep intf rnd beta H (m + 1)) (by omega)
      (by omega) hstep
    rw [hIco (m + 2) len] at h
    have harith : m + (len + 1) = m + 1 + len := by omega
    rw [harith]
    exact h


/-- The level sets of the generated hypergraph: level `k` (for
`2 ≤ k ≤ N`) holds exactly the `k`-subsets of the vertex set that are
forbidden while no proper sub-tuple of size at least 2 is forbidden;
every other level is empty. -/
theorem GenerateHypergraph_E {P A : Type} [Zero A] [Add A] [LinearOrder A]
    [DecidableEq P] [Inhabited P]
    (intf : P → P → A) (rnd : A → A) (beta : A) (S : List P) :
    ∀ j, (GenerateHypergraph intf rnd beta S).E j =
      if 2 ≤ j ∧ j ≤ S.length then
        (cand S.length j).filter (minForb (fun W => isForbidden intf rnd beta
          (W.map (GenerateHypergraph intf rnd beta S).location)))
      else [] := by
  have hT : GenerateHypergraph intf rnd beta S =
      (List.Ico 2 (S.length + 1)).foldl (genStep intf rnd beta)
        ((List.Ico 2 (S.length + 1)).foldl
          (fun H k => H.addEdges (cand S.length k))
          ((List.Ico 0 S.length).foldl
            (fun H i => H.setLocation (i + 1) (S.getD i default))
            (Hypergraph.init S.length))) := rfl
  obtain ⟨hE0, hnv0⟩ := foldl_setLocation_frame S (List.Ico 0 S.length)
    (Hypergraph.init S.length : Hypergraph P)
  obtain ⟨hE1, hnv1, hloc1⟩ := addLevels_E S.length
    (List.Ico 2 (S.length + 1))
    ((List.Ico 0 S.length).foldl
      (fun H i => H.setLocation (i + 1) (S.getD i default))
      (Hypergraph.init S.length : Hypergraph P))
    (List.Ico.nodup 2 (S.length + 1))
    (fun k _ => by rw [hE0]; rfl)
  have hbase : GenInv S.length
      ((List.Ico 2 (S.length + 1)).foldl
        (fun H k => H.addEdges (cand S.length k))
        ((List.Ico 0 S.length).foldl
          (fun H i => H.setLocation (i + 1) (S.getD i default))
          (Hypergraph.init S.length : Hypergraph P))).location
      (fun W => isForbidden intf rnd beta (W.map
        ((List.Ico 2 (S.length + 1)).foldl
          (fun H k => H.addEdges (cand S.length k))
          ((List.Ico 0 S.length).foldl
            (fun H i => H.setLocation (i + 1) (S.getD i default))
            (Hypergraph.init S.length : Hypergraph P))).location))
      1
      ((List.Ico 2 (S.length + 1)).foldl
        (fun H k => H.addEdges (cand S.length k))
        ((List.Ico 0 S.length).foldl
          (fun H i => H.setLocation (i + 1) (S.getD i default))
          (Hypergraph.init S.length : Hypergraph P)) : Hypergraph P) := by
    refine ⟨by rw [hnv1, hnv0]; rfl, rfl, ?_, ?_, ?_⟩
    · intro i hi
      simp only [hE1]
      have hni : i ∉ List.Ico 2 (S.length + 1) := by
        rw [List.Ico.mem]
        omega
      rw [if_neg hni, hE0]
      rfl
    · intro k hk2 hk1
      omega
    · intro i hi hiN
      simp only [hE1]
      have hmi : i ∈ List.Ico 2 (S.length + 1) := by
        rw [List.Ico.mem]
        omega
      rw [if_pos hmi]
      refine (List.filter_eq_self.mpr ?_).symm
      intro f _
      refine (survB_iff _ 1 f).mpr ?_
      intro g _ h2 h1
      omega
  intro j
  rcases Nat.eq_zero_or_pos S.length with hN | hN
  · rw [hT, hN]
    have h1 : List.Ico 2 (0 + 1) = [] := rfl
    have h2 : List.Ico 0 0 = [] := rfl
    rw [h1, h2]
    simp only [List.foldl_nil]
    rw [if_neg (by omega)]
    rfl
  · have hfin := genLoop_final intf rnd beta S.length _ (S.length - 1) 1 _
      le_rfl (by omega) hbase
    have hIcoEq : List.Ico (1 + 1) (1 + 1 + (S.length - 1)) =
        List.Ico 2 (S.length + 1) := by
      have h : 1 + 1 + (S.length - 1) = S.length + 1 := by omega
      rw [h]
    rw [hIcoEq] at hfin
    have harith : 1 + (S.length - 1) = S.length := by omega
    rw [harith] at hfin
    rw [hT, hfin.loc]
    by_cases hj : 2 ≤ j ∧ j ≤ S.length
    · rw [if_pos hj]
      exact hfin.done j hj.1 hj.2
    · rw [if_neg hj]
      exact hfin.lo j (by omega)

/-! ## Claim C1 : minimality of the generated hypergraph -/

/-- C1.  For every list `S` of pairwise-distinct locations and every
interference kernel and threshold (covering every exponent `alpha` and
every `beta`), no edge of the generated hypergraph, in any level set, is
a proper superset of any other edge: set inclusion between two edges
forces equality as sets. -/
theorem GenerateHypergraph_minimal {P A : Type} [Zero A] [Add A]
    [LinearOrder A] [DecidableEq P] [Inhabited P]
    (intf : P → P → A) (rnd : A → A) (beta : A) (S : List P)
    (hS : S.Nodup) :
    ∀ k j e f, e ∈ (GenerateHypergraph intf rnd beta S).E k →
      f ∈ (GenerateHypergraph intf rnd beta S).E j →
      f ⊆ e → e ⊆ f := by
  intro k j e f he hf hsub
  rw [GenerateHypergraph_E intf rnd beta S k] at he
  rw [GenerateHypergraph_E intf rnd beta S j] at hf
  split at he
  case isFalse => cases he
  split at hf
  case isFalse => cases hf
  rename_i hkc hjc
  obtain ⟨hec, hem⟩ := List.mem_filter.mp he
  obtain ⟨hfc, hfm⟩ := List.mem_filter.mp hf
  have hfe : f.Sublist e :=
    sublist_of_subset_sorted (cand_pairwise_lt hfc) (cand_pairwise_lt hec)
      hsub
  by_cases hfeq : f = e
  · rw [hfeq]
    exact fun x hx => hx
  · exfalso
    have h2f : 2 ≤ f.length := by
      rw [(mem_cand_iff.mp hfc).2]
      exact hjc.1
    have hforb := ((minForb_iff _ e).mp hem).2 f hfe hfeq h2f
    have hforb' := ((minForb_iff _ f).mp hfm).1
    rw [hforb] at hforb'
    cases hforb'

/-- Witness for C1: two stations at distance 1, constant unit
interference (the value of `1/dist^alpha` there for every `alpha`),
identity rounding, threshold 1. -/
theorem GenerateHypergraph_minimal_witness :
    ([((0 : ℚ), (0 : ℚ)), (1, 0)] : List (ℚ × ℚ)).Nodup ∧
    ∀ k j e f,
      e ∈ (GenerateHypergraph (fun _ _ => (1 : ℚ)) id 1
        [((0 : ℚ), (0 : ℚ)), (1, 0)]).E k →
      f ∈ (GenerateHypergraph (fun _ _ => (1 : ℚ)) id 1
        [((0 : ℚ), (0 : ℚ)), (1, 0)]).E j →
      f ⊆ e → e ⊆ f :=
  ⟨by decide,
   GenerateHypergraph_minimal (fun _ _ => (1 : ℚ)) id 1
     [((0 : ℚ), (0 : ℚ)), (1, 0)] (by decide)⟩

/-! ## Claim C2 : soundness of the generated hypergraph -/

/-- C2 counterexample.  The claim quantifies over every threshold
`beta`, but for `beta = 0` every set is forbidden — including
singletons, whose interference 0, rounded, is `0 ≥ beta`.  With two
stations at distance 1 (unit interference for every exponent), the edge
`(1,2)` is generated, yet dropping vertex 1 leaves a singleton that
`isForbidden` still reports as forbidden, contradicting the claimed
by-construction soundness of removing one vertex. -/
theorem GenerateHypergraph_sound_cex :
    ([((0 : ℚ), (0 : ℚ)), (1, 0)] : List (ℚ × ℚ)).Nodup ∧
    [1, 2] ∈ (GenerateHypergraph (fun _ _ => (1 : ℕ)) id 0
      [((0 : ℚ), (0 : ℚ)), (1, 0)]).E 2 ∧
    (1 : ℕ) ∈ ([1, 2] : List ℕ) ∧
    isForbidden (fun _ _ => (1 : ℕ)) id 0
      ((([1, 2] : List ℕ).erase 1).map
        (GenerateHypergraph (fun _ _ => (1 : ℕ)) id 0
          [((0 : ℚ), (0 : ℚ)), (1, 0)]).getLocation) = true := by
  decide

/-- C2 (amended with `beta > 0`).  For pairwise-distinct locations, a
positive threshold, and rounding fixing 0 (`round(0.0,3) = 0.0`), every
edge `e` of the generated hypergraph is forbidden at its stations'
locations, and removing any single vertex `w` from `e` yields a
non-forbidden location set. -/
theorem GenerateHypergraph_sound {P A : Type} [Zero A] [Add A]
    [LinearOrder A] [DecidableEq P] [Inhabited P]
    (intf : P → P → A) (rnd : A → A) (beta : A) (S : List P)
    (hS : S.Nodup) (hbeta : 0 < beta) (hrnd : rnd 0 = 0) :
    ∀ k e, e ∈ (GenerateHypergraph intf rnd beta S).E k →
      isForbidden intf rnd beta
        (e.map (GenerateHypergraph intf rnd beta S).getLocation) = true ∧
      ∀ w ∈ e, isForbidden intf rnd beta
        ((e.erase w).map
          (GenerateHypergraph intf rnd beta S).getLocation) = false := by
  intro k e he
  rw [GenerateHypergraph_E intf rnd beta S k] at he
  split at he
  case isFalse => cases he
  rename_i hkc
  obtain ⟨hec, hem⟩ := List.mem_filter.mp he
  obtain ⟨hfb, hmin⟩ := minForb_iff _ e |>.mp hem
  have helen : e.length = k := (mem_cand_iff.mp hec).2
  refine ⟨hfb, ?_⟩
  intro w hw
  have hsub : (e.erase w).Sublist e := e.erase_sublist w
  have hlen : (e.erase w).length = k - 1 := by
    rw [List.length_erase_of_mem hw, helen]
  by_cases hk3 : 3 ≤ k
  · have hne : e.erase w ≠ e := by
      intro h
      have hl := congrArg List.length h
      rw [hlen, helen] at hl
      omega
    exact hmin (e.erase w) hsub hne (by omega)
  · have hshort : ((e.erase w).map
        (GenerateHypergraph intf rnd beta S).getLocation).length ≤ 1 := by
      rw [List.length_map, hlen]
      omega
    exact isForbidden_short intf rnd beta _ hrnd hbeta hshort

/-- Witness for C2 with a positive threshold: two stations at distance
1, unit interference, identity rounding, threshold 1. -/
theorem GenerateHypergraph_sound_witness :
    ([((0 : ℚ), (0 : ℚ)), (1, 0)] : List (ℚ × ℚ)).Nodup ∧
    (0 : ℚ) < 1 ∧ id (0 : ℚ) = 0 ∧
    ∀ k e, e ∈ (GenerateHypergraph (fun _ _ => (1 : ℚ)) id 1
        [((0 : ℚ), (0 : ℚ)), (1, 0)]).E k →
      isForbidden (fun _ _ => (1 : ℚ)) id 1
        (e.map (GenerateHypergraph (fun _ _ => (1 : ℚ)) id 1
          [((0 : ℚ), (0 : ℚ)), (1, 0)]).getLocation) = true ∧
      ∀ w ∈ e, isForbidden (fun _ _ => (1 : ℚ)) id 1
        ((e.erase w).map (GenerateHypergraph (fun _ _ => (1 : ℚ)) id 1
          [((0 : ℚ), (0 : ℚ)), (1, 0)]).getLocation) = false :=
  ⟨by decide, by decide, rfl,
   GenerateHypergraph_sound (fun _ _ => (1 : ℚ)) id 1
     [((0 : ℚ), (0 : ℚ)), (1, 0)] (by decide) (by decide) rfl⟩

/-! ## Analysis of `interferenceDegree` (claim C6) -/

theorem fold_max_pull {G : Type} [DecidableEq G] (f : G → ℚ) :
    ∀ (s : Finset G) (b c : ℚ),
      s.fold max (max b c) f = max b (s.fold max c f) := by
  intro s
  induction s using Finset.induction_on with
  | empty => intro b c; simp
  | insert ha ih =>
    intro b c
    rw [Finset.fold_insert ha, Finset.fold_insert ha, ih, max_left_comm]

theorem fold_max_union (f : Finset ℕ → ℚ) :
    ∀ (s t : Finset (Finset ℕ)), Disjoint s t → ∀ b : ℚ,
      (s ∪ t).fold max b f = s.fold max (t.fold max b f) f := by
  intro s
  induction s using Finset.induction_on with
  | empty => intro t _ b; simp
  | insert ha ih =>
    rename_i a s
    intro t hdisj b
    have h1 : a ∉ t := fun hat =>
      (Finset.disjoint_left.mp hdisj) (Finset.mem_insert_self a s) hat
    have h2 : Disjoint s t :=
      Finset.disjoint_of_subset_left (Finset.subset_insert a s) hdisj
    have hnm : a ∉ s ∪ t := by
      rw [Finset.mem_union]
      rintro (h | h)
      · exact ha h
      · exact h1 h
    rw [Finset.insert_union, Finset.fold_insert hnm, Finset.fold_insert ha,
      ih t h2 b]

theorem foldl_max_nat_toFinset (f : ℕ → ℚ) :
    ∀ (l : List ℕ), l.Nodup → ∀ a : ℚ,
      l.foldl (fun r i => max r (f i)) a
        = Finset.fold max a f l.toFinset := by
  intro l
  induction l with
  | nil => intro _ a; simp
  | cons i l ih =>
    intro hnd a
    rw [List.nodup_cons] at hnd
    rw [List.foldl_cons, ih hnd.2, List.toFinset_cons,
      Finset.fold_insert (by rw [List.mem_toFinset]; exact hnd.1)]
    rw [max_comm a (f i), fold_max_pull]

theorem foldl_pair_split {B : Type} (f g : ℚ → B → ℚ) :
    ∀ (L : List B) (a b : ℚ),
      L.foldl (fun (pq : ℚ × ℚ) x => (f pq.1 x, g pq.2 x)) (a, b)
        = (L.foldl f a, L.foldl g b) := by
  intro L
  induction L with
  | nil => intro a b; rfl
  | cons x L ih =>
    intro a b
    rw [List.foldl_cons, List.foldl_cons, List.foldl_cons]
    exact ih (f a x) (g b x)

theorem foldl_add_eq_sum (f : ℕ → ℚ) :
    ∀ (J : List ℕ) (a : ℚ),
      J.foldl (fun s j => s + f j) a = a + (J.map f).sum := by
  intro J
  induction J with
  | nil => intro a; simp
  | cons j J ih =>
    intro a
    rw [List.foldl_cons, ih, List.map_cons, List.sum_cons, add_assoc]

/-- The scan of the power set performed per vertex by
`interferenceDegree`: folding a guarded maximum over `sublists'` of a
duplicate-free list is the `Finset.fold` of the maximum over the filtered
power set, provided guard and value factor through `toFinset`. -/
theorem foldl_max_sublists' :
    ∀ (l : List ℕ), l.Nodup →
    ∀ (Q : List ℕ → Prop) (iQ : DecidablePred Q) (g : List ℕ → ℚ)
      (Q' : Finset ℕ → Prop) (iQ' : DecidablePred Q') (g' : Finset ℕ → ℚ),
    (∀ J : List ℕ, J.Nodup → (∀ x ∈ J, x ∈ l) → (Q J ↔ Q' J.toFinset)) →
    (∀ J : List ℕ, J.Nodup → (∀ x ∈ J, x ∈ l) → g J = g' J.toFinset) →
    ∀ a : ℚ,
      l.sublists'.foldl (fun m J => if Q J then max m (g J) else m) a
        = (l.toFinset.powerset.filter Q').fold max a g' := by
  intro l
  induction l with
  | nil =>
    intro _ Q iQ g Q' iQ' g' hQ hg a
    have hnilmem : ∀ x ∈ ([] : List ℕ), x ∈ ([] : List ℕ) := fun _ hx => hx
    have hQnil : Q [] ↔ Q' ∅ := by
      have h := hQ [] List.nodup_nil hnilmem
      rwa [List.toFinset_nil] at h
    have hgnil : g [] = g' ∅ := by
      have h := hg [] List.nodup_nil hnilmem
      rwa [List.toFinset_nil] at h
    rw [List.sublists'_nil, List.toFinset_nil, Finset.powerset_empty,
      List.foldl_cons, List.foldl_nil, Finset.filter_singleton]
    by_cases h : Q []
    · rw [if_pos h, if_pos (hQnil.mp h), Finset.fold_singleton, hgnil,
        max_comm]
    · rw [if_neg h, if_neg (fun h' => h (hQnil.mpr h')), Finset.fold_empty]
  | cons x l ih =>
    intro hnd Q iQ g Q' iQ' g' hQ hg a
    rw [List.nodup_cons] at hnd
    have hxs : x ∉ l.toFinset := by
      rw [List.mem_toFinset]
      exact hnd.1
    rw [List.sublists'_cons, List.foldl_append, List.foldl_map]
    have hA1 := ih hnd.2 Q iQ g Q' iQ' g'
      (fun J hJn hJs => hQ J hJn (fun y hy => List.mem_cons_of_mem x (hJs y hy)))
      (fun J hJn hJs => hg J hJn (fun y hy => List.mem_cons_of_mem x (hJs y hy)))
      a
    rw [hA1]
    have hA2 := ih hnd.2 (fun J => Q (x :: J))
      (fun J => iQ (x :: J)) (fun J => g (x :: J))
      (fun u => Q' (insert x u)) (fun u => iQ' (insert x u))
      (fun u => g' (insert x u))
      (fun J hJn hJs => by
        have hxJ : x ∉ J := fun hxJ => hnd.1 (hJs x hxJ)
        have h1 := hQ (x :: J) (List.nodup_cons.mpr ⟨hxJ, hJn⟩)
          (fun y hy => by
            rcases List.mem_cons.mp hy with h | h
            · exact h ▸ List.mem_cons_self x l
            · exact List.mem_cons_of_mem x (hJs y h))
        rw [List.toFinset_cons] at h1
        exact h1)
      (fun J hJn hJs => by
        have hxJ : x ∉ J := fun hxJ => hnd.1 (hJs x hxJ)
        have h1 := hg (x :: J) (List.nodup_cons.mpr ⟨hxJ, hJn⟩)
          (fun y hy => by
            rcases List.mem_cons.mp hy with h | h
            · exact h ▸ List.mem_cons_self x l
            · exact List.mem_cons_of_mem x (hJs y h))
        rw [List.toFinset_cons] at h1
        exact h1)
      ((l.toFinset.powerset.filter Q').fold max a g')
    rw [hA2]
    rw [List.toFinset_cons, Finset.powerset_insert, Finset.filter_union]
    have hdisj : Disjoint (l.toFinset.powerset.filter Q')
        (((l.toFinset.powerset.image (insert x)).filter Q')) := by
      rw [Finset.disjoint_left]
      intro u hu hu2
      rw [Finset.mem_filter, Finset.mem_powerset] at hu
      rw [Finset.mem_filter, Finset.mem_image] at hu2
      obtain ⟨⟨v, _, hv⟩, _⟩ := hu2
      have hxu : x ∈ u := by
        rw [← hv]
        exact Finset.mem_insert_self x v
      exact hxs (hu.1 hxu)
    rw [Finset.union_comm, fold_max_union g' _ _ hdisj.symm a]
    rw [Finset.filter_image]
    have hinj : ∀ u ∈ l.toFinset.powerset.filter (fun u => Q' (insert x u)),
        ∀ v ∈ l.toFinset.powerset.filter (fun u => Q' (insert x u)),
        insert x u = insert x v → u = v := by
      intro u hu v hv heq
      rw [Finset.mem_filter, Finset.mem_powerset] at hu hv
      have hxu : x ∉ u := fun h => hxs (hu.1 h)
      have hxv : x ∉ v := fun h => hxs (hv.1 h)
      rw [← Finset.erase_insert hxu, ← Finset.erase_insert hxv, heq]
    rw [Finset.fold_image hinj]
    rfl

/-- Generic preservation of an invariant along a left fold. -/
theorem foldl_preserve {S B : Type} (step : S → B → S) (Inv : S → Prop)
    (hstep : ∀ s x, Inv s → Inv (step s x)) :
    ∀ (L : List B) (s : S), Inv s → Inv (L.foldl step s) := by
  intro L
  induction L with
  | nil => intro s hs; exact hs
  | cons x L ih =>
    intro s hs
    exact ih (step s x) (hstep s x hs)

theorem update_append_nodup (B : ℕ → List ℕ) (hB : ∀ i, (B i).Nodup)
    (j a : ℕ) (ha : a ∉ B j) :
    ∀ i, ((Function.update B j (B j ++ [a])) i).Nodup := by
  intro i
  rw [Function.update_apply]
  by_cases hij : i = j
  · rw [if_pos hij]
    exact (hB j).append (List.nodup_singleton a)
      (fun t ht hts => ha (List.mem_singleton.mp hts ▸ ht))
  · rw [if_neg hij]
    exact hB i

theorem adjInsertSnd_nodup (B : ℕ → List ℕ) (hB : ∀ i, (B i).Nodup)
    (p : ℕ × ℕ) : ∀ i, ((Hypergraph.adjInsertSnd B p) i).Nodup := by
  intro i
  unfold Hypergraph.adjInsertSnd
  split
  · exact hB i
  · exact update_append_nodup B hB p.1 p.2 (by assumption) i

theorem adjInsert_nodup (A : ℕ → List ℕ) (hA : ∀ i, (A i).Nodup)
    (p : ℕ × ℕ) : ∀ i, ((Hypergraph.adjInsert A p) i).Nodup := by
  unfold Hypergraph.adjInsert
  apply adjInsertSnd_nodup
  intro i
  split
  · exact hA i
  · exact update_append_nodup A hA p.2 p.1 (by assumption) i

theorem AdjacencyList_nodup {P : Type} (H : Hypergraph P) :
    ∀ i, ((H.AdjacencyList i)).Nodup := by
  show ∀ i, (((List.Ico 0 (H.numVertices + 1)).foldl
    (fun (A : ℕ → List ℕ) (k : ℕ) => (H.E k).foldl
      (fun (A : ℕ → List ℕ) (e : List ℕ) =>
        (pairsOf e).foldl Hypergraph.adjInsert A) A)
    (fun _ => [])) i).Nodup
  refine foldl_preserve _ (fun (A : ℕ → List ℕ) => ∀ i, (A i).Nodup) ?_ _ _
    (fun _ => List.nodup_nil)
  intro A k hAk
  refine foldl_preserve _ (fun (A : ℕ → List ℕ) => ∀ i, (A i).Nodup) ?_ _ _ hAk
  intro A e hAe
  refine foldl_preserve _ (fun (A : ℕ → List ℕ) => ∀ i, (A i).Nodup) ?_ _ _ hAe
  intro A p hAp
  exact adjInsert_nodup A hAp p

namespace Hypergraph

variable {P : Type}

/-- The independence test the source applies to a Python set `S`:
`len(S)` is the Finset cardinality and membership is Finset
membership. -/
def indepFin (H : Hypergraph P) (S : Finset ℕ) : Bool :=
  H.isIndepMem S.card (fun x => decide (x ∈ S))

/-- `Delta_i_p`, as the claim states it: the maximum (0 when the range
is empty) over all nonempty independent subsets `J` of `i`'s neighbour
set of the sum of `Delta[i][j]` over `J`. -/
def DeltaPrime (H : Hypergraph P) (i : ℕ) : ℚ :=
  ((H.AdjacencyList i).toFinset.powerset.filter
    (fun J => J.Nonempty ∧ H.indepFin J = true)).fold max 0
    (fun J => J.sum (fun j => H.Delta i j))

/-- `Delta_i_pp`, as the claim states it: the maximum (0 when the range
is empty) over all nonempty subsets `J` of `i`'s neighbour set such
that `J ∪ {i}` is independent of `1` plus the sum of `Delta[i][j]`
over `J`. -/
def DeltaDoublePrime (H : Hypergraph P) (i : ℕ) : ℚ :=
  ((H.AdjacencyList i).toFinset.powerset.filter
    (fun J => J.Nonempty ∧ H.indepFin (J ∪ {i}) = true)).fold max 0
    (fun J => 1 + J.sum (fun j => H.Delta i j))

end Hypergraph


/-- The per-vertex scan of `interferenceDegree` computes the pair of
specification maxima. -/
theorem inner_pair_eq {P : Type} (H : Hypergraph P) (i : ℕ) :
    ((H.AdjacencyList i).sublists'.foldl
      (fun (pq : ℚ × ℚ) (J : List ℕ) =>
        (if 1 ≤ J.length ∧ H.isIndependentSet J = true then
            max pq.1 (Hypergraph.sumDeltaRow H.Delta i J) else pq.1,
         if 1 ≤ J.length ∧ H.isIndepMem (J.toFinset ∪ {i}).card
             (fun x => decide (x ∈ J.toFinset ∪ {i})) = true then
            max pq.2 (1 + Hypergraph.sumDeltaRow H.Delta i J) else pq.2))
      (0, 0))
    = (H.DeltaPrime i, H.DeltaDoublePrime i) := by
  have hnonempty : ∀ J : List ℕ, J.Nodup →
      (1 ≤ J.length ↔ J.toFinset.Nonempty) := by
    intro J hJn
    have hcard : J.toFinset.card = J.length :=
      List.toFinset_card_of_nodup hJn
    exact Iff.trans (by rw [hcard]; exact Iff.rfl) Finset.card_pos
  have hindep : ∀ J : List ℕ, J.Nodup →
      H.isIndependentSet J = H.indepFin J.toFinset := by
    intro J hJn
    have hcard : J.toFinset.card = J.length :=
      List.toFinset_card_of_nodup hJn
    unfold Hypergraph.isIndependentSet Hypergraph.indepFin
    rw [hcard]
    congr 1
    funext x
    exact decide_eq_decide.mpr List.mem_toFinset.symm
  have hsum : ∀ J : List ℕ, J.Nodup →
      Hypergraph.sumDeltaRow H.Delta i J
        = J.toFinset.sum (fun j => H.Delta i j) := by
    intro J hJn
    unfold Hypergraph.sumDeltaRow
    rw [foldl_add_eq_sum (fun j => H.Delta i j) J 0, zero_add]
    rw [List.sum_toFinset _ hJn]
  rw [foldl_pair_split
    (fun m J => if 1 ≤ J.length ∧ H.isIndependentSet J = true then
      max m (Hypergraph.sumDeltaRow H.Delta i J) else m)
    (fun m J => if 1 ≤ J.length ∧ H.isIndepMem (J.toFinset ∪ {i}).card
        (fun x => decide (x ∈ J.toFinset ∪ {i})) = true then
      max m (1 + Hypergraph.sumDeltaRow H.Delta i J) else m)
    ((H.AdjacencyList i).sublists') 0 0]
  have hp := foldl_max_sublists' (H.AdjacencyList i) (AdjacencyList_nodup H i)
    (fun J => 1 ≤ J.length ∧ H.isIndependentSet J = true) inferInstance
    (fun J => Hypergraph.sumDeltaRow H.Delta i J)
    (fun s => s.Nonempty ∧ H.indepFin s = true) inferInstance
    (fun s => s.sum (fun j => H.Delta i j))
    (fun J hJn _ => and_congr (hnonempty J hJn) (by rw [hindep J hJn]))
    (fun J hJn _ => hsum J hJn) 0
  have hq := foldl_max_sublists' (H.AdjacencyList i) (AdjacencyList_nodup H i)
    (fun J => 1 ≤ J.length ∧ H.isIndepMem (J.toFinset ∪ {i}).card
      (fun x => decide (x ∈ J.toFinset ∪ {i})) = true) inferInstance
    (fun J => 1 + Hypergraph.sumDeltaRow H.Delta i J)
    (fun s => s.Nonempty ∧ H.indepFin (s ∪ {i}) = true) inferInstance
    (fun s => 1 + s.sum (fun j => H.Delta i j))
    (fun J hJn _ => and_congr (hnonempty J hJn) Iff.rfl)
    (fun J hJn _ => congrArg (fun x => 1 + x) (hsum J hJn)) 0
  rw [hp, hq]
  rfl

/-- C6. `interferenceDegree` returns the maximum over the vertices
`i = 1..N` of `max (Delta_i_p, Delta_i_pp)`, where `Delta_i_p` is the
maximum over all nonempty independent subsets `J` of `i`'s neighbour
set of `sum_{j in J} Delta[i][j]` (0 when no such `J` exists) and
`Delta_i_pp` is the maximum over all nonempty subsets `J` of `i`'s
neighbour set with `J ∪ {i}` independent of `1 + sum_{j in J}
Delta[i][j]` (0 when no such `J`); for `N = 0` the range is empty and
the result is 0. -/
theorem interferenceDegree_spec {P : Type} (H : Hypergraph P) :
    H.interferenceDegree
      = (Finset.Icc 1 H.numVertices).fold max 0
          (fun i => max (H.DeltaPrime i) (H.DeltaDoublePrime i)) := by
  show (List.Ico 1 (H.numVertices + 1)).foldl
      (fun (res : ℚ) (i : ℕ) =>
        max (max res
          (((H.AdjacencyList i).sublists'.foldl
            (fun (pq : ℚ × ℚ) (J : List ℕ) =>
              (if 1 ≤ J.length ∧ H.isIndependentSet J = true then
                  max pq.1 (Hypergraph.sumDeltaRow H.Delta i J) else pq.1,
               if 1 ≤ J.length ∧ H.isIndepMem (J.toFinset ∪ {i}).card
                   (fun x => decide (x ∈ J.toFinset ∪ {i})) = true then
                  max pq.2 (1 + Hypergraph.sumDeltaRow H.Delta i J) else pq.2))
            (0, 0)).1))
          (((H.AdjacencyList i).sublists'.foldl
            (fun (pq : ℚ × ℚ) (J : List ℕ) =>
              (if 1 ≤ J.length ∧ H.isIndependentSet J = true then
                  max pq.1 (Hypergraph.sumDeltaRow H.Delta i J) else pq.1,
               if 1 ≤ J.length ∧ H.isIndepMem (J.toFinset ∪ {i}).card
                   (fun x => decide (x ∈ J.toFinset ∪ {i})) = true then
                  max pq.2 (1 + Hypergraph.sumDeltaRow H.Delta i J) else pq.2))
            (0, 0)).2))
      0
    = (Finset.Icc 1 H.numVertices).fold max 0
        (fun i => max (H.DeltaPrime i) (H.DeltaDoublePrime i))
  have hfun : (fun (res : ℚ) (i : ℕ) =>
        max (max res
          (((H.AdjacencyList i).sublists'.foldl
            (fun (pq : ℚ × ℚ) (J : List ℕ) =>
              (if 1 ≤ J.length ∧ H.isIndependentSet J = true then
                  max pq.1 (Hypergraph.sumDeltaRow H.Delta i J) else pq.1,
               if 1 ≤ J.length ∧ H.isIndepMem (J.toFinset ∪ {i}).card
                   (fun x => decide (x ∈ J.toFinset ∪ {i})) = true then
                  max pq.2 (1 + Hypergraph.sumDeltaRow H.Delta i J) else pq.2))
            (0, 0)).1))
          (((H.AdjacencyList i).sublists'.foldl
            (fun (pq : ℚ × ℚ) (J : List ℕ) =>
              (if 1 ≤ J.length ∧ H.isIndependentSet J = true then
                  max pq.1 (Hypergraph.sumDeltaRow H.Delta i J) else pq.1,
               if 1 ≤ J.length ∧ H.isIndepMem (J.toFinset ∪ {i}).card
                   (fun x => decide (x ∈ J.toFinset ∪ {i})) = true then
                  max pq.2 (1 + Hypergraph.sumDeltaRow H.Delta i J) else pq.2))
            (0, 0)).2))
      = fun (res : ℚ) (i : ℕ) =>
          max res (max (H.DeltaPrime i) (H.DeltaDoublePrime i)) := by
    funext res i
    rw [inner_pair_eq H i, max_assoc]
  rw [hfun]
  rw [foldl_max_nat_toFinset
    (fun i => max (H.DeltaPrime i) (H.DeltaDoublePrime i))
    (List.Ico 1 (H.numVertices + 1))
    (List.Ico.nodup 1 (H.numVertices + 1)) 0]
  have hIcc : (List.Ico 1 (H.numVertices + 1)).toFinset
      = Finset.Icc 1 H.numVertices := by
    ext x
    rw [List.mem_toFinset, List.Ico.mem, Finset.mem_Icc]
    omega
  rw [hIcc]
